import Mathlib

/-!
Verification development for the `px4-ulog` stream parser
(`src/stream_parser/file_reader.rs`, `src/stream_parser/model.rs`,
`src/unpack/mod.rs`).

Byte streams are modelled as `List Nat` (each element a `u8` value),
machine integers as `Nat` with explicit `% 65536` where the source casts
to `u16`, Rust `HashMap`s as association lists (`insertA` models
`HashMap::insert`, which replaces an existing entry and returns the old
value), and Rust `Result` as `Except String`.  Code paths that panic in
Rust (out-of-bounds indexing, failed `assert!`) are modelled by the
distinguished outcome `POutcome.panicked`.
-/

set_option autoImplicit false

deriving instance DecidableEq for Except

namespace Ulog

/-- Little-endian value of a byte list: models `unpack::as_u16_le` /
`unpack::as_u64_le`, which sum `v[i] << (8*i)` over the whole slice
(callers pass slices of exactly the right length). -/
def asLE : List Nat → Nat
| [] => 0
| b :: r => b + 256 * asLE r

/-- `str::starts_with`, expressed directly on the character list (the
library `String.startsWith` is defined by well-founded recursion, which
the kernel cannot evaluate on concrete runs). -/
def strStartsWith (s pre : String) : Bool := pre.data.isPrefixOf s.data

/-- Association-list lookup, modelling `HashMap::get`. -/
def lookupA {α β : Type} [DecidableEq α] : List (α × β) → α → Option β
| [], _ => none
| (k, v) :: r, k' => if k = k' then some v else lookupA r k'

/-- Association-list insert, modelling `HashMap::insert`: replaces an
existing binding in place and returns the previous value. -/
def insertA {α β : Type} [DecidableEq α] : List (α × β) → α → β → Option β × List (α × β)
| [], k, v => (none, [(k, v)])
| (k', v') :: r, k, v =>
  if k' = k then (some v', (k, v) :: r)
  else ((insertA r k v).1, (k', v') :: (insertA r k v).2)

/-! ### Primitive type model (`model.rs` `FlattenedFieldType`, `file_reader.rs` `DataType`) -/

inductive FlattenedFieldType
| Int8 | UInt8 | Int16 | UInt16 | Int32 | UInt32 | Int64 | UInt64
| Float | Double | Bool | Char
deriving DecidableEq

/-- Wire width in bytes of a primitive: the amount by which
`flatten_data_type` advances the offset in each primitive branch. -/
def FlattenedFieldType.width : FlattenedFieldType → Nat
| .Int8 => 1 | .UInt8 => 1 | .Bool => 1 | .Char => 1
| .Int16 => 2 | .UInt16 => 2
| .Int32 => 4 | .UInt32 => 4 | .Float => 4
| .Int64 => 8 | .UInt64 => 8 | .Double => 8

/-- `file_reader.rs` `DataType`. -/
inductive DataType
| Int8 | UInt8 | Int16 | UInt16 | Int32 | UInt32 | Int64 | UInt64
| Float | Double | Bool | Char
| Message (name : String)
deriving DecidableEq

/-- `DataType::from_str`. -/
def DataType.from_str (written_type : String) : DataType :=
  match written_type with
  | "int8_t" => .Int8
  | "uint8_t" => .UInt8
  | "int16_t" => .Int16
  | "uint16_t" => .UInt16
  | "int32_t" => .Int32
  | "uint32_t" => .UInt32
  | "int64_t" => .Int64
  | "uint64_t" => .UInt64
  | "float" => .Float
  | "double" => .Double
  | "bool" => .Bool
  | "char" => .Char
  | other => .Message other

/-- `MaybeRepeatedType`: the repeat count is an `i16` in Rust. -/
inductive MaybeRepeatedType
| Singular (dt : DataType)
| Repeated (dt : DataType) (n : Int)
deriving DecidableEq

structure Field where
  field_name : String
  field_type : MaybeRepeatedType
deriving DecidableEq

structure FlattenedField where
  flattened_field_name : String
  field_type : FlattenedFieldType
  offset : Nat
deriving DecidableEq

inductive TimestampFieldType
| UInt8 | UInt16 | UInt32 | UInt64
deriving DecidableEq

structure TimestampField where
  field_type : TimestampFieldType
  offset : Nat
deriving DecidableEq

/-- Number of bytes `TimestampField::parse_timestamp` reads for each
timestamp type. -/
def TimestampFieldType.width : TimestampFieldType → Nat
| .UInt8 => 1 | .UInt16 => 2 | .UInt32 => 4 | .UInt64 => 8

/-- `TimestampField::parse_timestamp`: little-endian read of
`width` bytes at the stored offset of the record payload. -/
def TimestampField.parse_timestamp (t : TimestampField) (data : List Nat) : Nat :=
  asLE ((data.drop t.offset).take t.field_type.width)

structure FlattenedFormat where
  message_name : String
  fields : List FlattenedField
  name_to_field : List (String × FlattenedField)
  timestamp_field : Option TimestampField
  size : Nat
deriving DecidableEq

/-- `FlattenedFormat::new` (`model.rs`).  The Rust function wraps the
result in `Ok` unconditionally; the `Result` layer is omitted.
`name_to_field` is collected from the field list with `HashMap` insert
semantics (a later duplicate name overwrites an earlier one), and the
`timestamp_field` member is derived from the entry named `"timestamp"`
when its type is one of the four unsigned integer types. -/
def FlattenedFormat.new (message_name : String) (fields : List FlattenedField) (size : Nat) :
    FlattenedFormat :=
  let name_to_field := fields.foldl (fun m f => (insertA m f.flattened_field_name f).2) []
  let timestamp_field :=
    match lookupA name_to_field "timestamp" with
    | none => none
    | some field =>
      match field.field_type with
      | .UInt8 => some ⟨.UInt8, field.offset⟩
      | .UInt16 => some ⟨.UInt16, field.offset⟩
      | .UInt32 => some ⟨.UInt32, field.offset⟩
      | .UInt64 => some ⟨.UInt64, field.offset⟩
      | _ => none
  ⟨message_name, fields, name_to_field, timestamp_field, size⟩

/-! ### The format flattener (`file_reader.rs` lines 457-710)

The Rust functions mutate a `visiting` set (`already_added_messages`)
and an output vector; here the set is passed down as a list (the insert
made by `add_flattened_message` is undone by `flatten_data_type` on
return, so on every success path the set is restored — passing it
downward functionally is equivalent) and the generated fields are
returned.  The mutual recursion is made structural with a `fuel`
argument that decreases at each descent into a nested message;
`flatten_format` supplies `message_formats.length` which is shown below
to never run out on any reachable path (the visiting path holds
pairwise-distinct keys of the map). -/

/-- The step function of `flatten_data_type`, parameterized by
`recur`, the entry into `add_flattened_message` one nesting level down
(`add_flattened_message` below ties the recursive knot by structural
recursion on the fuel, so that every function evaluates in the kernel;
the wrappers following it restore the source signatures).  Each
primitive branch pushes one field at the current offset (stored through
the `as u16` cast, hence `% 65536`) and advances the offset by the
primitive width; the `Message` branch descends with the new name prefix
`qualified_field_name + message_name + "."`.  The trailing check models
the `u16` offset-overflow test. -/
def flatten_data_typeF
    (recur : String → Nat → String → List String → Except String (Nat × List FlattenedField))
    (data_type : DataType) (qualified_field_name : String) (offset : Nat)
    (already_added_messages : List String) : Except String (Nat × List FlattenedField) :=
  match
    (match data_type with
     | .Int8 => .ok (offset + 1, [⟨qualified_field_name, .Int8, offset % 65536⟩])
     | .UInt8 => .ok (offset + 1, [⟨qualified_field_name, .UInt8, offset % 65536⟩])
     | .Int16 => .ok (offset + 2, [⟨qualified_field_name, .Int16, offset % 65536⟩])
     | .UInt16 => .ok (offset + 2, [⟨qualified_field_name, .UInt16, offset % 65536⟩])
     | .Int32 => .ok (offset + 4, [⟨qualified_field_name, .Int32, offset % 65536⟩])
     | .UInt32 => .ok (offset + 4, [⟨qualified_field_name, .UInt32, offset % 65536⟩])
     | .Int64 => .ok (offset + 8, [⟨qualified_field_name, .Int64, offset % 65536⟩])
     | .UInt64 => .ok (offset + 8, [⟨qualified_field_name, .UInt64, offset % 65536⟩])
     | .Float => .ok (offset + 4, [⟨qualified_field_name, .Float, offset % 65536⟩])
     | .Double => .ok (offset + 8, [⟨qualified_field_name, .Double, offset % 65536⟩])
     | .Bool => .ok (offset + 1, [⟨qualified_field_name, .Bool, offset % 65536⟩])
     | .Char => .ok (offset + 1, [⟨qualified_field_name, .Char, offset % 65536⟩])
     | .Message message_name =>
       recur message_name offset (qualified_field_name ++ message_name ++ ".")
         already_added_messages
    : Except String (Nat × List FlattenedField)) with
  | .error e => .error e
  | .ok (offset', fl) =>
    if offset' % 65536 = offset' then .ok (offset', fl) else .error "offset overflow"

/-- The `for i in 0..n` loop of `flatten_field` for a repeated type:
index `i` counts up, `count` counts the remaining iterations. -/
def flatten_repeatedF
    (recur : String → Nat → String → List String → Except String (Nat × List FlattenedField))
    (dt : DataType) (base_name : String) :
    Nat → Nat → Nat → List String → Except String (Nat × List FlattenedField)
| _, 0, offset, _ => .ok (offset, [])
| i, count' + 1, offset, already_added_messages =>
  match flatten_data_typeF recur dt (base_name ++ "[" ++ toString i ++ "]") offset
      already_added_messages with
  | .error e => .error e
  | .ok (offset', fl) =>
    match flatten_repeatedF recur dt base_name (i + 1) count' offset'
        already_added_messages with
    | .error e => .error e
    | .ok (offset'', fl') => .ok (offset'', fl ++ fl')

/-- `flatten_field`.  A `Repeated(dt, n)` field expands `n` times with
`"[i]"` suffixes (`i16` counts `n ≤ 0` give zero iterations); a
`Singular` field expands once under the accumulated name. -/
def flatten_fieldF
    (recur : String → Nat → String → List String → Except String (Nat × List FlattenedField))
    (field : Field) (offset : Nat) (hierarchical_message_pfx : String)
    (already_added_messages : List String) : Except String (Nat × List FlattenedField) :=
  match field.field_type with
  | .Repeated dt n =>
    flatten_repeatedF recur dt (hierarchical_message_pfx ++ field.field_name) 0 n.toNat offset
      already_added_messages
  | .Singular dt =>
    flatten_data_typeF recur dt (hierarchical_message_pfx ++ field.field_name) offset
      already_added_messages

/-- The field loop of `add_flattened_message`.  `last_field_name` is the
name of the last field of the whole list (`fields.last().unwrap()`).
A field whose name begins with `"_padding"` and equals the last field's
name, while the prefix is empty, stops the loop (trailing-padding
elision at top level).  Any other `"_padding"`-named field is expanded
into the throwaway list (its generated fields are dropped) but still
advances the offset. -/
def flatten_field_listF
    (recur : String → Nat → String → List String → Except String (Nat × List FlattenedField)) :
    List Field → String → Nat → String → List String →
    Except String (Nat × List FlattenedField)
| [], _, offset, _, _ => .ok (offset, [])
| field :: rest, last_field_name, offset, hierarchical_message_pfx, already_added_messages =>
  if (hierarchical_message_pfx == "") && strStartsWith field.field_name "_padding"
      && (field.field_name == last_field_name) then
    .ok (offset, [])
  else
    match flatten_fieldF recur field offset hierarchical_message_pfx
        already_added_messages with
    | .error e => .error e
    | .ok (offset', fl) =>
      let kept := if strStartsWith field.field_name "_padding" then [] else fl
      match flatten_field_listF recur rest last_field_name offset'
          hierarchical_message_pfx already_added_messages with
      | .error e => .error e
      | .ok (offset'', fl') => .ok (offset'', kept ++ fl')

/-- `add_flattened_message`: rejects a message already on the visiting
path, looks the message up, and runs the field loop.  The visiting set
is modelled as a list passed downward (the Rust insert made here is
removed again by `flatten_data_type` on return, so on every success
path the net change is none); the fuel decreases at each descent into a
nested message and `flatten_format` supplies enough for any acyclic
map. -/
def add_flattened_message (message_formats : List (String × List Field)) :
    Nat → String → Nat → String → List String → Except String (Nat × List FlattenedField)
| fuel, message_name, offset, hierarchical_message_pfx, already_added_messages =>
  if message_name ∈ already_added_messages then
    .error ("Found circular reference to " ++ message_name)
  else
    match lookupA message_formats message_name with
    | none => .error ("Could not find format definition for message " ++ message_name)
    | some fields =>
      match fields.getLast? with
      | none => .ok (offset, [])
      | some last_field =>
        flatten_field_listF
          (fun mn o qn vis =>
            match fuel with
            | 0 => .error "recursion fuel exhausted"
            | fuel' + 1 => add_flattened_message message_formats fuel' mn o qn vis)
          fields last_field.field_name offset hierarchical_message_pfx
          (message_name :: already_added_messages)

/-- The descent closure used by `add_flattened_message` at a given fuel
level, named so that the wrappers below can share it. -/
def recurOf (message_formats : List (String × List Field)) (fuel : Nat) :
    String → Nat → String → List String → Except String (Nat × List FlattenedField) :=
  fun mn o qn vis =>
    match fuel with
    | 0 => .error "recursion fuel exhausted"
    | fuel' + 1 => add_flattened_message message_formats fuel' mn o qn vis

/-- `flatten_data_type` with the source's signature. -/
def flatten_data_type (fuel : Nat) (data_type : DataType) (qualified_field_name : String)
    (offset : Nat) (message_formats : List (String × List Field))
    (already_added_messages : List String) : Except String (Nat × List FlattenedField) :=
  flatten_data_typeF (recurOf message_formats fuel) data_type qualified_field_name offset
    already_added_messages

def flatten_repeated (fuel : Nat) (dt : DataType) (base_name : String) (i : Nat) (count : Nat)
    (offset : Nat) (message_formats : List (String × List Field))
    (already_added_messages : List String) : Except String (Nat × List FlattenedField) :=
  flatten_repeatedF (recurOf message_formats fuel) dt base_name i count offset
    already_added_messages

def flatten_field (fuel : Nat) (field : Field) (offset : Nat)
    (message_formats : List (String × List Field)) (hierarchical_message_pfx : String)
    (already_added_messages : List String) : Except String (Nat × List FlattenedField) :=
  flatten_fieldF (recurOf message_formats fuel) field offset hierarchical_message_pfx
    already_added_messages

def flatten_field_list (fuel : Nat) (fields : List Field) (last_field_name : String)
    (offset : Nat) (message_formats : List (String × List Field))
    (hierarchical_message_pfx : String) (already_added_messages : List String) :
    Except String (Nat × List FlattenedField) :=
  flatten_field_listF (recurOf message_formats fuel) fields last_field_name offset
    hierarchical_message_pfx already_added_messages

theorem flatten_field_list_nil (fuel : Nat) (last_field_name : String) (offset : Nat)
    (message_formats : List (String × List Field)) (pfx : String) (vis : List String) :
    flatten_field_list fuel [] last_field_name offset message_formats pfx vis
      = .ok (offset, []) := rfl

theorem flatten_field_list_cons (fuel : Nat) (field : Field) (rest : List Field)
    (last_field_name : String) (offset : Nat) (message_formats : List (String × List Field))
    (pfx : String) (vis : List String) :
    flatten_field_list fuel (field :: rest) last_field_name offset message_formats pfx vis
      = if (pfx == "") && strStartsWith field.field_name "_padding"
            && (field.field_name == last_field_name) then
          .ok (offset, [])
        else
          match flatten_field fuel field offset message_formats pfx vis with
          | .error e => .error e
          | .ok (offset', fl) =>
            let kept := if strStartsWith field.field_name "_padding" then [] else fl
            match flatten_field_list fuel rest last_field_name offset' message_formats pfx vis with
            | .error e => .error e
            | .ok (offset'', fl') => .ok (offset'', kept ++ fl') := rfl

theorem flatten_repeated_zero (fuel : Nat) (dt : DataType) (base_name : String) (i : Nat)
    (offset : Nat) (message_formats : List (String × List Field)) (vis : List String) :
    flatten_repeated fuel dt base_name i 0 offset message_formats vis = .ok (offset, []) := rfl

theorem flatten_repeated_succ (fuel : Nat) (dt : DataType) (base_name : String) (i count : Nat)
    (offset : Nat) (message_formats : List (String × List Field)) (vis : List String) :
    flatten_repeated fuel dt base_name i (count + 1) offset message_formats vis
      = match flatten_data_type fuel dt (base_name ++ "[" ++ toString i ++ "]") offset
            message_formats vis with
        | .error e => .error e
        | .ok (offset', fl) =>
          match flatten_repeated fuel dt base_name (i + 1) count offset' message_formats vis with
          | .error e => .error e
          | .ok (offset'', fl') => .ok (offset'', fl ++ fl') := rfl

theorem add_flattened_message_eq (message_formats : List (String × List Field)) (fuel : Nat)
    (message_name : String) (offset : Nat) (pfx : String) (vis : List String) :
    add_flattened_message message_formats fuel message_name offset pfx vis
      = if message_name ∈ vis then
          .error ("Found circular reference to " ++ message_name)
        else
          match lookupA message_formats message_name with
          | none => .error ("Could not find format definition for message " ++ message_name)
          | some fields =>
            match fields.getLast? with
            | none => .ok (offset, [])
            | some last_field =>
              flatten_field_list fuel fields last_field.field_name offset message_formats
                pfx (message_name :: vis) := by
  unfold add_flattened_message
  rfl

/-- `flatten_format`'s loop over the raw-format map: every top-level
message is expanded from offset 2 with an empty prefix and an empty
visiting set, the final offset is checked against `u16`, and the
resulting `FlattenedFormat` is recorded. -/
def flatten_format_entries (fuel : Nat) (message_formats : List (String × List Field)) :
    List (String × List Field) → Except String (List (String × FlattenedFormat))
| [] => .ok []
| (message_name, _) :: rest =>
  match add_flattened_message message_formats fuel message_name 2 "" [] with
  | .error e => .error e
  | .ok (offset, flattened_fields) =>
    if offset % 65536 = offset then
      match flatten_format_entries fuel message_formats rest with
      | .error e => .error e
      | .ok tbl =>
        .ok ((message_name, FlattenedFormat.new message_name flattened_fields offset) :: tbl)
    else .error ("Message is too big " ++ message_name)

/-- `flatten_format`.  The fuel `message_formats.length` never runs out:
the visiting path holds pairwise-distinct keys of the map, so the
nesting depth is bounded by the number of entries. -/
def flatten_format (message_formats : List (String × List Field)) :
    Except String (List (String × FlattenedFormat)) :=
  flatten_format_entries message_formats.length message_formats message_formats

/-! ### UTF-8 (`std::str::from_utf8`, `String::from_utf8_lossy`)

A byte-level UTF-8 decoder.  `utf8DecodeOne` decodes one scalar value
from the head of the list, returning `(some c, k)` for a valid `k`-byte
sequence and `(none, k)` for an invalid sequence spanning `k` bytes
(the length of its maximal valid prefix, as in Rust's lossy
substitution of maximal subparts). -/

def isUtf8Cont (b : Nat) : Bool := 128 ≤ b && b ≤ 191

def replacementChar : Char := Char.ofNat 65533

def utf8DecodeOne : List Nat → Option Char × Nat
| [] => (none, 1)
| b :: r =>
  if b ≤ 127 then (some (Char.ofNat b), 1)
  else if 194 ≤ b && b ≤ 223 then
    match r with
    | c1 :: _ =>
      if isUtf8Cont c1 then (some (Char.ofNat ((b - 192) * 64 + (c1 - 128))), 2) else (none, 1)
    | [] => (none, 1)
  else if 224 ≤ b && b ≤ 239 then
    let lo1 : Nat := if b = 224 then 160 else 128
    let hi1 : Nat := if b = 237 then 159 else 191
    match r with
    | c1 :: r1 =>
      if lo1 ≤ c1 && c1 ≤ hi1 then
        match r1 with
        | c2 :: _ =>
          if isUtf8Cont c2 then
            (some (Char.ofNat ((b - 224) * 4096 + (c1 - 128) * 64 + (c2 - 128))), 3)
          else (none, 2)
        | [] => (none, 2)
      else (none, 1)
    | [] => (none, 1)
  else if 240 ≤ b && b ≤ 244 then
    let lo1 : Nat := if b = 240 then 144 else 128
    let hi1 : Nat := if b = 244 then 143 else 191
    match r with
    | c1 :: r1 =>
      if lo1 ≤ c1 && c1 ≤ hi1 then
        match r1 with
        | c2 :: r2 =>
          if isUtf8Cont c2 then
            match r2 with
            | c3 :: _ =>
              if isUtf8Cont c3 then
                (some (Char.ofNat
                  ((b - 240) * 262144 + (c1 - 128) * 4096 + (c2 - 128) * 64 + (c3 - 128))), 4)
              else (none, 3)
            | [] => (none, 3)
          else (none, 2)
        | [] => (none, 2)
      else (none, 1)
    | [] => (none, 1)
  else (none, 1)

/-- Strict decoding (`std::str::from_utf8`): any invalid sequence fails. -/
def utf8DecodeAll (fuel : Nat) (l : List Nat) : Option (List Char) :=
  match fuel with
  | 0 => match l with | [] => some [] | _ => none
  | fuel' + 1 =>
    match l with
    | [] => some []
    | _ =>
      match utf8DecodeOne l with
      | (some c, k) => (utf8DecodeAll fuel' (l.drop k)).map (c :: ·)
      | (none, _) => none

def from_utf8 (l : List Nat) : Option String :=
  (utf8DecodeAll l.length l).map List.asString

/-- Lossy decoding (`String::from_utf8_lossy`): each maximal invalid
subpart becomes one replacement character. -/
def utf8LossyAll (fuel : Nat) (l : List Nat) : List Char :=
  match fuel with
  | 0 => []
  | fuel' + 1 =>
    match l with
    | [] => []
    | _ =>
      match utf8DecodeOne l with
      | (some c, k) => c :: utf8LossyAll fuel' (l.drop k)
      | (none, k) => replacementChar :: utf8LossyAll fuel' (l.drop k)

def from_utf8_lossy (l : List Nat) : String :=
  List.asString (utf8LossyAll l.length l)

/-! ### Format-string parsing (`parse_format`, lines 411-455) -/

/-- `str::parse::<i16>`: optional sign, at least one decimal digit,
value within the `i16` range. -/
def parseI16 (s : String) : Option Int :=
  let (sign, digits) :=
    match s.data with
    | '+' :: r => ((1 : Int), r)
    | '-' :: r => ((-1 : Int), r)
    | r => ((1 : Int), r)
  if digits = [] then none
  else if digits.all (fun c => c.isDigit) then
    let v : Nat := digits.foldl (fun a c => a * 10 + (c.toNat - 48)) 0
    let iv : Int := sign * v
    if -32768 ≤ iv ∧ iv ≤ 32767 then some iv else none
  else none

/-- `MaybeRepeatedType::from_str`: split on `"["`; one part means a
singular type, two parts with a trailing `"]"` and a valid `i16` count
mean a repeated type. -/
def MaybeRepeatedType.from_str (written_type : String) : Except String MaybeRepeatedType :=
  let split := written_type.splitOn "["
  if split.length = 1 then .ok (.Singular (DataType.from_str written_type))
  else if split.length = 2 ∧ (split.getD 1 "").endsWith "]" then
    let should_be_number := (split.getD 1 "").dropRight 1
    match parseI16 should_be_number with
    | some n => .ok (.Repeated (DataType.from_str (split.getD 0 "")) n)
    | none => .error ("invalid type string: " ++ written_type)
  else .error ("invalid type string: " ++ written_type)

structure Format where
  message_name : String
  fields : List Field
deriving DecidableEq

/-- The field loop of `parse_format`: each `"type name"` entry must
split on `" "` into exactly two non-empty parts. -/
def parseFormatFields : List String → Except String (List Field)
| [] => .ok []
| type_and_name :: rest =>
  let split := type_and_name.splitOn " "
  if split.length ≠ 2 ∨ split.any (·.isEmpty) then
    .error ("invalid type_and_name string: " ++ type_and_name)
  else
    match MaybeRepeatedType.from_str (split.getD 0 "") with
    | .error e => .error e
    | .ok field_type =>
      match parseFormatFields rest with
      | .error e => .error e
      | .ok fs => .ok (⟨split.getD 1 "", field_type⟩ :: fs)

/-- `parse_format`: decode UTF-8, split on `":"` into exactly two
non-empty parts, split the second on `";"` skipping empty entries,
parse each field, and reject duplicate field names (the Rust code
compares the field count with the size of the set of names). -/
def parse_format (data : List Nat) : Except String Format :=
  match from_utf8 data with
  | none => .error "format message is not a string"
  | some format =>
    let parts := format.splitOn ":"
    if parts.length ≠ 2 ∨ parts.any (·.isEmpty) then
      .error ("invalid format string: " ++ format)
    else
      let message_name := parts.getD 0 ""
      match parseFormatFields (((parts.getD 1 "").splitOn ";").filter (fun s => !s.isEmpty)) with
      | .error e => .error e
      | .ok fields =>
        if (fields.map (·.field_name)).Nodup then .ok ⟨message_name, fields⟩
        else .error ("duplicate field name in format string: " ++ format)

/-! ### Parser state machine (`LogParser`, lines 18-330) -/

inductive ParseStatus
| Beginning | AfterHeader | InDefinitions | InData
deriving DecidableEq

inductive ParseErrorType
| InvalidFile | Other
deriving DecidableEq

structure UlogParseError where
  error_type : ParseErrorType
  description : String
deriving DecidableEq

/-- Outcomes of a parsing step: `ok`, an `Err(UlogParseError)` return,
or a Rust panic (out-of-bounds slice index or failed `assert!`). -/
inductive POutcome (α : Type)
| ok (a : α)
| fail (e : UlogParseError)
| panicked (msg : String)
deriving DecidableEq

def POutcome.bind {α β : Type} : POutcome α → (α → POutcome β) → POutcome β
| .ok a, f => f a
| .fail e, _ => .fail e
| .panicked m, _ => .panicked m

instance : Monad POutcome where
  pure := .ok
  bind := POutcome.bind

def POutcome.isOk {α : Type} : POutcome α → Bool
| .ok _ => true
| _ => false

structure DataFormat where
  flattened_format : List (String × FlattenedFormat)
  registered_messages : List (Nat × (FlattenedFormat × Nat))
deriving DecidableEq

/-- `DataFormat::register_msg_id`.  Note the Rust code calls
`HashMap::insert` first: a duplicate `msg_id` both replaces the stored
`(FlattenedFormat, MultiId)` pair and returns an error.  The mutated
state is returned alongside the result. -/
def DataFormat.register_msg_id (df : DataFormat) (msg_id : Nat) (message_name : String)
    (multi_id : Nat) : Except String Unit × DataFormat :=
  match lookupA df.flattened_format message_name with
  | some flattened_message =>
    let (preexisting, reg') := insertA df.registered_messages msg_id (flattened_message, multi_id)
    match preexisting with
    | some _ =>
      (.error "duplicate registration for msg_id", { df with registered_messages := reg' })
    | none => (.ok (), { df with registered_messages := reg' })
  | none =>
    (.error ("Could not find format definition for message " ++ message_name), df)

/-- `DataFormat::get_message_description`. -/
def DataFormat.get_message_description (df : DataFormat) (msg_id : Nat) :
    Option (FlattenedFormat × Nat) :=
  lookupA df.registered_messages msg_id

structure DataMessage where
  msg_id : Nat
  multi_id : Nat
  flattened_format : FlattenedFormat
  data : List Nat
deriving DecidableEq

structure LoggedStringMessage where
  log_level : Nat
  timestamp : Nat
  logged_message : String
deriving DecidableEq

/-- One sink invocation: the argument of the data-message callback or
of the logged-string callback.  The model records every would-be
invocation (both callbacks installed). -/
inductive Event
| data (m : DataMessage)
| logging (m : LoggedStringMessage)
deriving DecidableEq

structure LogParser where
  version : Nat
  timestamp : Nat
  leftover : List Nat
  message_formats : List (String × List Field)
  flattened_format : DataFormat
  status : ParseStatus
deriving DecidableEq

/-- `LogParser::default()`. -/
def LogParser.init : LogParser :=
  ⟨0, 0, [], [], ⟨[], []⟩, .Beginning⟩

inductive MessageType
| Unknown | Format | Data | Info | MultipleInfo | Parameter | AddLoggedMessage
| RemoveLoggedMessage | Sync | Dropout | Logging | FlagBits
deriving DecidableEq

/-- `ULogMessage::msg_type`: the type byte read as an ASCII character. -/
def msgTypeOfByte (b : Nat) : MessageType :=
  if b = 70 then .Format
  else if b = 68 then .Data
  else if b = 73 then .Info
  else if b = 77 then .MultipleInfo
  else if b = 80 then .Parameter
  else if b = 65 then .AddLoggedMessage
  else if b = 82 then .RemoveLoggedMessage
  else if b = 83 then .Sync
  else if b = 79 then .Dropout
  else if b = 76 then .Logging
  else if b = 66 then .FlagBits
  else .Unknown

/-- `transition_to_data_section_if_necessary`: only legal in
`InDefinitions` or `InData`; on the first entry from `InDefinitions`
the flattener runs over the accumulated raw formats and the status
moves to `InData`. -/
def transition_to_data_section (p : LogParser) : POutcome LogParser :=
  if ¬ (p.status = .InDefinitions ∨ p.status = .InData) then
    .fail ⟨.Other, "message encountered in wrong status"⟩
  else if p.status = .InDefinitions then
    match flatten_format p.message_formats with
    | .ok tbl => .ok { p with flattened_format := ⟨tbl, []⟩, status := .InData }
    | .error e => .fail ⟨.Other, e⟩
  else .ok p

/-- `parse_message`.  The `AddLoggedMessage` arm indexes `msg.data[0]`
and slices `msg.data[1..3]` / `msg.data[3..]` without any length check,
so a payload shorter than 3 bytes panics in Rust.  On an error return
the partially mutated parser is dropped (`POutcome.fail` carries no
state); the one state mutation observable past an error,
`register_msg_id`'s table replacement, is modelled in
`DataFormat.register_msg_id` itself. -/
def parse_message (p : LogParser) (msg_type : Nat) (data : List Nat) :
    POutcome (LogParser × List Event) :=
  match msgTypeOfByte msg_type with
  | .FlagBits =>
    if p.status ≠ .AfterHeader then .fail ⟨.Other, "flag bits at bad position"⟩
    else .ok ({ p with status := .InDefinitions }, [])
  | .Format =>
    match parse_format data with
    | .error e => .fail ⟨.Other, e⟩
    | .ok format =>
      let (old, m') := insertA p.message_formats format.message_name format.fields
      match old with
      | some _ => .fail ⟨.Other, "duplicate message definition: " ++ format.message_name⟩
      | none => .ok ({ p with message_formats := m' }, [])
  | .AddLoggedMessage =>
    (transition_to_data_section p).bind fun p =>
      if data.length < 3 then .panicked "index out of bounds"
      else
        let multi_id := data.getD 0 0
        let msg_id := asLE ((data.drop 1).take 2)
        match from_utf8 (data.drop 3) with
        | none => .fail ⟨.Other, "format message is not a string"⟩
        | some message_name =>
          match p.flattened_format.register_msg_id msg_id message_name multi_id with
          | (.ok _, df') => .ok ({ p with flattened_format := df' }, [])
          | (.error e, _) => .fail ⟨.Other, e⟩
  | .Logging =>
    (transition_to_data_section p).bind fun p =>
      if data.length < 9 then .fail ⟨.Other, "Logged string message was too short"⟩
      else
        let log_level := data.getD 0 0
        let ts := asLE ((data.drop 1).take 8)
        let logged_message := from_utf8_lossy (data.drop 9)
        .ok (p, [.logging ⟨log_level, ts, logged_message⟩])
  | .Data =>
    if p.status ≠ .InData then
      .fail ⟨.Other, "data message encountered before data section was started"⟩
    else if data.length < 2 then
      .fail ⟨.Other, "encountered data message which was too short"⟩
    else
      let msg_id := asLE (data.take 2)
      match p.flattened_format.get_message_description msg_id with
      | none => .fail ⟨.Other, "data message encountered unregistered msg_id"⟩
      | some (flattened_format, multi_id) =>
        if flattened_format.size ≠ data.length % 65536 then
          .fail ⟨.Other, "data message had wrong size"⟩
        else .ok (p, [.data ⟨msg_id, multi_id, flattened_format, data⟩])
  | _ => .ok (p, [])

def MAX_MESSAGE_SIZE : Nat := 2 + 1 + 65535

def HEADER_BYTES : List Nat := [85, 76, 111, 103, 1, 18, 53]

/-- `parse_single_entry`: returns the number of bytes consumed, the
sink invocations, and the new parser state.  In the `Beginning` state a
16-byte header is required and validated; otherwise a record needs a
3-byte header and, before it is consumed, strictly more than
`size + 3` pending bytes.  The function opens with
`assert!(self.leftover.is_empty())`. -/
def parse_single_entry (p : LogParser) (buf : List Nat) :
    POutcome (Nat × List Event × LogParser) :=
  if p.leftover ≠ [] then .panicked "assertion failed: leftover not empty"
  else if p.status = .Beginning then
    if buf.length < 16 then .ok (0, [], p)
    else if buf.take 7 ≠ HEADER_BYTES then
      .fail ⟨.InvalidFile, "The header does not match the template"⟩
    else
      .ok (16, [],
        { p with
          version := buf.getD 7 0
          timestamp := asLE ((buf.drop 8).take 8)
          status := .AfterHeader })
  else if buf.length < 3 then .ok (0, [], p)
  else
    let msg_size := asLE (buf.take 2)
    let msg_type := buf.getD 2 0
    let consumed_len := msg_size + 3
    if buf.length ≤ consumed_len then .ok (0, [], p)
    else
      match parse_message p msg_type ((buf.drop 3).take msg_size) with
      | .ok (p', evs) => .ok (consumed_len, evs, p')
      | .fail e => .fail e
      | .panicked m => .panicked m

/-- The trailing loop of `consume_bytes`: parse single entries until one
consumes nothing, then stash the remaining bytes in the carry buffer.
Events already delivered to the sinks are reported even when a later
record fails, as the Rust callbacks have already run.  One fuel unit
per iteration; every non-final iteration consumes at least one byte, so
`buf.length + 1` never runs out. -/
def consume_loop : Nat → LogParser → List Nat → List Event × POutcome LogParser
| 0, _, _ => ([], .panicked "unreachable: loop fuel exhausted")
| fuel + 1, p, buf =>
  match parse_single_entry p buf with
  | .fail e => ([], .fail e)
  | .panicked m => ([], .panicked m)
  | .ok (num_bytes_consumed, evs, p') =>
    if num_bytes_consumed = 0 then
      (evs, .ok { p' with leftover := p'.leftover ++ buf })
    else
      let (evs', r) := consume_loop fuel p' (buf.drop num_bytes_consumed)
      (evs ++ evs', r)

/-- `LogParser::consume_bytes`.  With a nonempty carry the chunk is
appended (up to `MAX_MESSAGE_SIZE`) and one entry is parsed out of the
combined buffer:
* 0 bytes consumed: the carry is rolled back to its original length and
  the call returns — the appended chunk bytes are discarded;
* fewer bytes than the original carry consumed: they are drained from
  the carry and the call recurses on the full chunk;
* otherwise the carry is cleared and the loop continues inside the
  chunk past the already-consumed bytes.
The recursion shortens the carry each time, so `leftover.length + 1`
fuel units suffice. -/
def consume_bytes_fueled : Nat → LogParser → List Nat → List Event × POutcome LogParser
| 0, _, _ => ([], .panicked "unreachable: fuel exhausted")
| fuel + 1, p, buf =>
  if p.leftover = [] then consume_loop (buf.length + 1) p buf
  else if ¬ (p.leftover.length < MAX_MESSAGE_SIZE) then ([], .panicked "assertion failed")
  else
    let original_leftover_len := p.leftover.length
    let bytes_to_copy := min buf.length (MAX_MESSAGE_SIZE - p.leftover.length)
    let combined := p.leftover ++ buf.take bytes_to_copy
    match parse_single_entry { p with leftover := [] } combined with
    | .fail e => ([], .fail e)
    | .panicked m => ([], .panicked m)
    | .ok (leftover_bytes_used, evs, p') =>
      if leftover_bytes_used = 0 then
        if ¬ (combined.length < MAX_MESSAGE_SIZE) then ([], .panicked "assertion failed")
        else (evs, .ok { p' with leftover := p.leftover })
      else if leftover_bytes_used < original_leftover_len then
        let (evs', r) :=
          consume_bytes_fueled fuel { p' with leftover := p.leftover.drop leftover_bytes_used } buf
        (evs ++ evs', r)
      else
        let (evs', r) :=
          consume_loop (buf.length + 1) { p' with leftover := [] }
            (buf.drop (leftover_bytes_used - original_leftover_len))
        (evs ++ evs', r)

def consume_bytes (p : LogParser) (buf : List Nat) : List Event × POutcome LogParser :=
  consume_bytes_fueled (p.leftover.length + 1) p buf

/-- Feed a sequence of chunks, accumulating the sink invocations; a
failing chunk ends the run with the events delivered up to then. -/
def feedChunks : LogParser → List (List Nat) → List Event × POutcome LogParser
| p, [] => ([], .ok p)
| p, c :: cs =>
  match consume_bytes p c with
  | (evs, .ok p') =>
    let (evs', r) := feedChunks p' cs
    (evs ++ evs', r)
  | (evs, .fail e) => (evs, .fail e)
  | (evs, .panicked m) => (evs, .panicked m)

/-! ## Helper lemmas -/

theorem insertA_fst {α β : Type} [DecidableEq α] (l : List (α × β)) (k : α) (v : β) :
    (insertA l k v).1 = lookupA l k := by
  induction l with
  | nil => rfl
  | cons h t ih =>
    obtain ⟨k', v'⟩ := h
    by_cases hk : k' = k
    · simp [insertA, lookupA, hk]
    · simp [insertA, lookupA, hk, ih]

theorem insertA_lookup_self {α β : Type} [DecidableEq α] (l : List (α × β)) (k : α) (v : β) :
    lookupA (insertA l k v).2 k = some v := by
  induction l with
  | nil => simp [insertA, lookupA]
  | cons h t ih =>
    obtain ⟨k', v'⟩ := h
    by_cases hk : k' = k
    · simp [insertA, lookupA, hk]
    · simp [insertA, lookupA, hk, ih]

theorem insertA_lookup_ne {α β : Type} [DecidableEq α] (l : List (α × β)) (k k'' : α) (v : β)
    (hne : k'' ≠ k) : lookupA (insertA l k v).2 k'' = lookupA l k'' := by
  induction l with
  | nil => simp [insertA, lookupA, Ne.symm hne]
  | cons h t ih =>
    obtain ⟨k', v'⟩ := h
    by_cases hk : k' = k
    · subst hk
      simp [insertA, lookupA, Ne.symm hne]
    · simp [insertA, lookupA, hk, ih]

/-! ## Claims -/

/-- A freshly constructed parser that has read the 16-byte header
(version 1, start timestamp 2) and a FlagBits record: the state in
which definition-section records arrive. -/
def stInDefinitions : LogParser :=
  ⟨1, 2, [], [], ⟨[], []⟩, .InDefinitions⟩

/-- The same parser after the transition into the data section (no
formats, no registrations). -/
def stInData : LogParser :=
  ⟨1, 2, [], [], ⟨[], []⟩, .InData⟩

/-- The example stream for the chunking claim: 16-byte header (version
1, timestamp 2), a FlagBits record with empty payload, a Logging record
(level 6, timestamp 1, message "abc"), and one trailing byte so the
strict-greater framing bound releases the Logging record. -/
def streamC1 : List Nat :=
  [85, 76, 111, 103, 1, 18, 53, 1, 2, 0, 0, 0, 0, 0, 0, 0]
    ++ [0, 0, 66]
    ++ [12, 0, 76, 6, 1, 0, 0, 0, 0, 0, 0, 0, 97, 98, 99]
    ++ [0]

/-- C1, failing input.  Feeding `streamC1` as one chunk succeeds and
delivers the logging record; feeding the same bytes as the chunks
`[0..3)`, `[3..7)`, `[7..35)` loses data: the second call appends the
4-byte chunk to the 3-byte carry, parses nothing (7 < 16 bytes), rolls
the carry back to 3 bytes and returns, silently dropping the 4 bytes
(`consume_bytes`, file_reader.rs lines 143-148).  The third call then
sees a corrupted header and fails, so the two runs produce different
sink-invocation sequences — the chunking-invariance claim fails on the
code. -/
theorem c1_chunking_inequivalent :
    (feedChunks .init [streamC1]).2.isOk = true
  ∧ (feedChunks .init [streamC1]).1 = [.logging ⟨6, 1, "abc"⟩]
  ∧ (feedChunks .init [streamC1.take 3, (streamC1.drop 3).take 4, streamC1.drop 7]).2
      = .fail ⟨.InvalidFile, "The header does not match the template"⟩
  ∧ (feedChunks .init [streamC1.take 3, (streamC1.drop 3).take 4, streamC1.drop 7]).1 = [] := by
  refine ⟨by decide, by decide, by decide, by decide⟩

/-- C8.  A zero-size record after the header is framed as 3 consumed
bytes with an empty payload (shown with the ignored type `O`), and the
L and D arms reject the empty payload with an error; but the A
(AddLoggedMessage) arm performs `msg.data[0]` with no length check, so
in Rust it panics with an index-out-of-bounds instead of returning an
error — the claim that all three of L, A, D reject it as an error fails
on the code. -/
theorem c8_zero_size_record :
    parse_single_entry stInDefinitions [0, 0, 79, 9] = .ok (3, [], stInDefinitions)
  ∧ parse_single_entry stInDefinitions [0, 0, 76, 9]
      = .fail ⟨.Other, "Logged string message was too short"⟩
  ∧ parse_single_entry stInDefinitions [0, 0, 65, 9] = .panicked "index out of bounds"
  ∧ parse_single_entry stInData [0, 0, 68, 9]
      = .fail ⟨.Other, "encountered data message which was too short"⟩ := by
  refine ⟨by decide, by decide, by decide, by decide⟩

/-- The flattened format of `"x:uint32_t a;"`. -/
def fmtX : FlattenedFormat := FlattenedFormat.new "x" [⟨"a", .UInt32, 2⟩] 6

/-- The flattened format of an empty message `"y"`. -/
def fmtY : FlattenedFormat := FlattenedFormat.new "y" [] 2

/-- A data-section format table with `msg_id 1` already registered to
`(fmtX, MultiId 0)`. -/
def dfC4 : DataFormat := ⟨[("x", fmtX), ("y", fmtY)], [(1, (fmtX, 0))]⟩

/-- C4, counterexample.  Registering `msg_id 1` a second time (name
`"y"`, multi id 3) does yield an error, but the claim that no state
change occurs and the table still maps 1 to the original pair is false:
`register_msg_id` calls `HashMap::insert` before the duplicate check,
so after the error the table maps 1 to the *new* pair `(fmtY, 3)`,
which differs from the original `(fmtX, 0)`. -/
theorem c4_counterexample :
    (dfC4.register_msg_id 1 "y" 3).1 = .error "duplicate registration for msg_id"
  ∧ lookupA (dfC4.register_msg_id 1 "y" 3).2.registered_messages 1 = some (fmtY, 3)
  ∧ some ((fmtY, 3) : FlattenedFormat × Nat) ≠ some ((fmtX, 0) : FlattenedFormat × Nat) := by
  refine ⟨by decide, by decide, by decide⟩

/-- C4, amended.  A second `AddLoggedMessage` registration for an
already-used `msg_id` yields exactly one error; afterwards the
registration table maps the id to the *new* `(FlattenedFormat,
MultiId)` pair of the rejected registration (the insert happens before
the duplicate check), every other id is unchanged, and the flattened
format table is unchanged. -/
theorem c4_amended (df : DataFormat) (msg_id : Nat) (message_name : String) (multi_id : Nat)
    (fmt : FlattenedFormat) (orig : FlattenedFormat × Nat)
    (hreg : lookupA df.registered_messages msg_id = some orig)
    (hname : lookupA df.flattened_format message_name = some fmt) :
    (df.register_msg_id msg_id message_name multi_id).1
        = .error "duplicate registration for msg_id"
  ∧ lookupA (df.register_msg_id msg_id message_name multi_id).2.registered_messages msg_id
        = some (fmt, multi_id)
  ∧ (∀ k, k ≠ msg_id →
        lookupA (df.register_msg_id msg_id message_name multi_id).2.registered_messages k
          = lookupA df.registered_messages k)
  ∧ (df.register_msg_id msg_id message_name multi_id).2.flattened_format
        = df.flattened_format := by
  have hpre : (insertA df.registered_messages msg_id (fmt, multi_id)).1 = some orig := by
    rw [insertA_fst]; exact hreg
  refine ⟨?_, ?_, ?_, ?_⟩ <;>
    simp only [DataFormat.register_msg_id, hname, hpre] <;>
    first
    | rfl
    | exact insertA_lookup_self ..
    | (intro k hk; exact insertA_lookup_ne _ _ _ _ hk)

/-- C4, witness for the amended theorem. -/
theorem c4_amended_witness :
    lookupA (dfC4.register_msg_id 1 "y" 3).2.registered_messages 1 = some (fmtY, 3) :=
  (c4_amended dfC4 1 "y" 3 fmtY (fmtX, 0) (by decide) (by decide)).2.1

/-- C3.  Past the header (any status other than `Beginning`, empty
carry), a record is consumed — and hence parsed and delivered — only
when the pending view holds strictly more than `size + 3` bytes, where
`size` is the little-endian `u16` in the first two bytes; when the view
holds exactly `size + 3` bytes, `parse_single_entry` consumes 0 bytes
and `consume_bytes` retains the whole chunk in the carry buffer,
delivering nothing. -/
theorem c3_strict_greater_framing (p : LogParser) (buf : List Nat)
    (hst : p.status ≠ .Beginning) (hleft : p.leftover = []) :
    (∀ consumed evs p', parse_single_entry p buf = .ok (consumed, evs, p') → consumed ≠ 0 →
        asLE (buf.take 2) + 3 < buf.length)
  ∧ (buf.length = asLE (buf.take 2) + 3 →
        parse_single_entry p buf = .ok (0, [], p)
      ∧ consume_bytes p buf = ([], .ok { p with leftover := buf })) := by
  have hnl : ¬ p.leftover ≠ [] := by simp [hleft]
  constructor
  · intro consumed evs p' hok hne
    simp only [parse_single_entry, if_neg hnl, if_neg hst] at hok
    by_cases h3 : buf.length < 3
    · rw [if_pos h3] at hok
      simp only [POutcome.ok.injEq, Prod.mk.injEq] at hok
      exact absurd hok.1.symm hne
    · rw [if_neg h3] at hok
      by_cases hle : buf.length ≤ asLE (buf.take 2) + 3
      · rw [if_pos hle] at hok
        simp only [POutcome.ok.injEq, Prod.mk.injEq] at hok
        exact absurd hok.1.symm hne
      · omega
  · intro hlen
    have h3 : ¬ buf.length < 3 := by omega
    have hle : buf.length ≤ asLE (buf.take 2) + 3 := by omega
    have hps : parse_single_entry p buf = .ok (0, [], p) := by
      simp only [parse_single_entry, if_neg hnl, if_neg hst, if_neg h3, if_pos hle]
    refine ⟨hps, ?_⟩
    rw [consume_bytes, hleft]
    simp only [List.length_nil, consume_bytes_fueled, hleft, if_pos rfl]
    simp only [consume_loop, hps, if_pos rfl, hleft, List.nil_append]
    simp

/-- C3, witness: in the definitions section a 3-byte view holding a
zero-size record header (exactly `size + 3 = 3` bytes) is not consumed
and moves to the carry whole. -/
theorem c3_witness :
    consume_bytes stInDefinitions [0, 0, 66] = ([], .ok { stInDefinitions with leftover := [0, 0, 66] }) :=
  ((c3_strict_greater_framing stInDefinitions [0, 0, 66] (by decide) rfl).2 (by decide)).2

/-- Closed form of the `Data` arm of `parse_message` (the byte 68 is
the ASCII `D`). -/
theorem parse_message_data_eq (p : LogParser) (data : List Nat) :
    parse_message p 68 data =
      if p.status ≠ .InData then
        .fail ⟨.Other, "data message encountered before data section was started"⟩
      else if data.length < 2 then
        .fail ⟨.Other, "encountered data message which was too short"⟩
      else
        match lookupA p.flattened_format.registered_messages (asLE (data.take 2)) with
        | none => .fail ⟨.Other, "data message encountered unregistered msg_id"⟩
        | some (fmt, multi) =>
          if fmt.size ≠ data.length % 65536 then .fail ⟨.Other, "data message had wrong size"⟩
          else .ok (p, [.data ⟨asLE (data.take 2), multi, fmt, data⟩]) := rfl

/-- C9.  For a framed `D` record (payload length at most `u16`, as the
framer guarantees): a data-sink invocation happens exactly when the
status is `InData`, the payload holds at least 2 bytes, the leading
little-endian `u16` id is registered, and the payload length equals the
registered format's `total_size_bytes`; the delivered record carries
the full payload including the leading id bytes, and any violation
produces an error with no delivery. -/
theorem c9_data_delivery (p : LogParser) (data : List Nat) (hlen : data.length < 65536) :
    (∀ evs p', parse_message p 68 data = .ok (p', evs) → evs ≠ [] →
        p.status = .InData ∧ 2 ≤ data.length ∧
        ∃ fmt multi,
          lookupA p.flattened_format.registered_messages (asLE (data.take 2)) = some (fmt, multi)
          ∧ fmt.size = data.length
          ∧ p' = p ∧ evs = [.data ⟨asLE (data.take 2), multi, fmt, data⟩])
  ∧ (∀ fmt multi, p.status = .InData → 2 ≤ data.length →
        lookupA p.flattened_format.registered_messages (asLE (data.take 2)) = some (fmt, multi) →
        fmt.size = data.length →
        parse_message p 68 data = .ok (p, [.data ⟨asLE (data.take 2), multi, fmt, data⟩]))
  ∧ ((p.status ≠ .InData ∨ data.length < 2
        ∨ lookupA p.flattened_format.registered_messages (asLE (data.take 2)) = none
        ∨ (∃ fmt multi,
            lookupA p.flattened_format.registered_messages (asLE (data.take 2)) = some (fmt, multi)
            ∧ fmt.size ≠ data.length)) →
        ∃ e, parse_message p 68 data = .fail e) := by
  have hmod : data.length % 65536 = data.length := Nat.mod_eq_of_lt hlen
  by_cases hst : p.status = .InData
  · by_cases h2 : data.length < 2
    · have heq : parse_message p 68 data
          = .fail ⟨.Other, "encountered data message which was too short"⟩ := by
        rw [parse_message_data_eq, if_neg (not_not_intro hst), if_pos h2]
      refine ⟨?_, ?_, ?_⟩
      · intro _ _ h; rw [heq] at h; exact POutcome.noConfusion h
      · intro _ _ _ hge; omega
      · intro _; exact ⟨_, heq⟩
    · cases hlook : lookupA p.flattened_format.registered_messages (asLE (data.take 2)) with
      | none =>
        have heq : parse_message p 68 data
            = .fail ⟨.Other, "data message encountered unregistered msg_id"⟩ := by
          rw [parse_message_data_eq, if_neg (not_not_intro hst), if_neg h2, hlook]
        refine ⟨?_, ?_, ?_⟩
        · intro _ _ h; rw [heq] at h; exact POutcome.noConfusion h
        · intro fmt multi _ _ hl; exact Option.noConfusion hl
        · intro _; exact ⟨_, heq⟩
      | some fm =>
        obtain ⟨fmt, multi⟩ := fm
        have heq : parse_message p 68 data
            = if fmt.size ≠ data.length % 65536 then
                .fail ⟨.Other, "data message had wrong size"⟩
              else .ok (p, [.data ⟨asLE (data.take 2), multi, fmt, data⟩]) := by
          rw [parse_message_data_eq, if_neg (not_not_intro hst), if_neg h2, hlook]
        rw [hmod] at heq
        by_cases hsz : fmt.size = data.length
        · rw [if_neg (not_not_intro hsz)] at heq
          refine ⟨?_, ?_, ?_⟩
          · intro evs p' h _
            rw [heq] at h
            simp only [POutcome.ok.injEq, Prod.mk.injEq] at h
            exact ⟨hst, by omega, fmt, multi, rfl, hsz, h.1.symm, h.2.symm⟩
          · intro fmt' multi' _ _ hl _
            simp only [Option.some.injEq, Prod.mk.injEq] at hl
            rw [← hl.1, ← hl.2]
            exact heq
          · rintro (h | h | h | ⟨fmt', multi', hl', hsz'⟩)
            · exact absurd hst h
            · omega
            · exact Option.noConfusion h
            · simp only [Option.some.injEq, Prod.mk.injEq] at hl'
              exact absurd (hl'.1 ▸ hsz) hsz'
        · rw [if_pos hsz] at heq
          refine ⟨?_, ?_, ?_⟩
          · intro _ _ h; rw [heq] at h; exact POutcome.noConfusion h
          · intro fmt' multi' _ _ hl' hsz'
            simp only [Option.some.injEq, Prod.mk.injEq] at hl'
            exact absurd (hl'.1 ▸ hsz') hsz
          · intro _; exact ⟨_, heq⟩
  · have heq : parse_message p 68 data
        = .fail ⟨.Other, "data message encountered before data section was started"⟩ := by
      rw [parse_message_data_eq, if_pos hst]
    refine ⟨?_, ?_, ?_⟩
    · intro _ _ h; rw [heq] at h; exact POutcome.noConfusion h
    · intro _ _ h; exact absurd h hst
    · intro _; exact ⟨_, heq⟩

/-- C9, witness: a 6-byte payload for registered `msg_id 1` is
delivered with the full payload. -/
theorem c9_witness :
    parse_message { stInData with flattened_format := dfC4 } 68 [1, 0, 42, 0, 0, 0]
      = .ok ({ stInData with flattened_format := dfC4 },
             [.data ⟨1, 0, fmtX, [1, 0, 42, 0, 0, 0]⟩]) :=
  (c9_data_delivery { stInData with flattened_format := dfC4 } [1, 0, 42, 0, 0, 0]
    (by decide)).2.1 fmtX 0 (by decide) (by decide) (by decide) (by decide)

/-- The four unsigned integer types accepted for a timestamp field
(the arms of the `timestamp_field` match in `FlattenedFormat::new`). -/
def isUnsignedInt : FlattenedFieldType → Bool
| .UInt8 => true
| .UInt16 => true
| .UInt32 => true
| .UInt64 => true
| _ => false

/-- The timestamp type assigned to each accepted primitive type by
`FlattenedFormat::new`. -/
def tsTypeOf : FlattenedFieldType → Option TimestampFieldType
| .UInt8 => some .UInt8
| .UInt16 => some .UInt16
| .UInt32 => some .UInt32
| .UInt64 => some .UInt64
| _ => none

theorem isUnsignedInt_eq_isSome (ft : FlattenedFieldType) :
    isUnsignedInt ft = (tsTypeOf ft).isSome := by
  cases ft <;> rfl

theorem tsTypeOf_width (ft : FlattenedFieldType) (tt : TimestampFieldType)
    (h : tsTypeOf ft = some tt) : tt.width = ft.width := by
  cases ft <;> simp only [tsTypeOf] at h <;> first
  | exact Option.noConfusion h
  | (rw [← Option.some.inj h]; rfl)

/-- With pairwise-distinct field names, the `name → field` map built by
`FlattenedFormat::new` (left fold of `HashMap::insert`) looks up to the
same field that a first-match search finds. -/
theorem lookup_name_to_field (k : String) :
    ∀ (fields : List FlattenedField), (fields.map (·.flattened_field_name)).Nodup →
    ∀ m : List (String × FlattenedField),
      lookupA (fields.foldl (fun m f => (insertA m f.flattened_field_name f).2) m) k
        = match fields.find? (fun f => f.flattened_field_name == k) with
          | some f => some f
          | none => lookupA m k := by
  intro fields
  induction fields with
  | nil => intro _ m; rfl
  | cons f rest ih =>
    intro hnodup m
    simp only [List.map_cons, List.nodup_cons] at hnodup
    obtain ⟨hfnotin, hnodup'⟩ := hnodup
    simp only [List.foldl_cons]
    rw [ih hnodup' _]
    by_cases hf : f.flattened_field_name = k
    · have hpf : (f.flattened_field_name == k) = true := beq_iff_eq.mpr hf
      have hrest : rest.find? (fun g => g.flattened_field_name == k) = none := by
        rw [List.find?_eq_none]
        intro g hg hpg
        rw [beq_iff_eq] at hpg
        exact hfnotin (hf ▸ hpg ▸ List.mem_map_of_mem _ hg)
      rw [hrest]
      simp only [List.find?, hpf]
      rw [hf]
      exact insertA_lookup_self m k f
    · have hpf : (f.flattened_field_name == k) = false := by
        simp [hf]
      simp only [List.find?, hpf]
      cases rest.find? (fun g => g.flattened_field_name == k) with
      | some g => rfl
      | none => exact insertA_lookup_ne m f.flattened_field_name k f (Ne.symm hf)

/-- C10.  For every `FlattenedFormat` built by `FlattenedFormat::new`
over fields with pairwise-distinct names, `timestamp_field` is `some`
exactly when the field list contains a field named `"timestamp"` whose
primitive type is `UInt8`, `UInt16`, `UInt32` or `UInt64`, and in that
case the stored offset and byte width equal that field's offset and
width. -/
theorem c10_timestamp_field (name : String) (fields : List FlattenedField) (size : Nat)
    (hnodup : (fields.map (·.flattened_field_name)).Nodup) :
    ((FlattenedFormat.new name fields size).timestamp_field.isSome = true ↔
       ∃ f ∈ fields, f.flattened_field_name = "timestamp" ∧ isUnsignedInt f.field_type = true)
  ∧ (∀ t, (FlattenedFormat.new name fields size).timestamp_field = some t →
       ∃ f ∈ fields, f.flattened_field_name = "timestamp"
         ∧ t.offset = f.offset ∧ t.field_type.width = f.field_type.width) := by
  have hlu := lookup_name_to_field "timestamp" fields hnodup []
  have hts : (FlattenedFormat.new name fields size).timestamp_field
      = match fields.find? (fun f => f.flattened_field_name == "timestamp") with
        | none => none
        | some field =>
          (tsTypeOf field.field_type).map (fun tt => (⟨tt, field.offset⟩ : TimestampField)) := by
    have h0 : (FlattenedFormat.new name fields size).timestamp_field
        = match lookupA
            (fields.foldl (fun m f => (insertA m f.flattened_field_name f).2) []) "timestamp" with
          | none => none
          | some field =>
            match field.field_type with
            | .UInt8 => some ⟨.UInt8, field.offset⟩
            | .UInt16 => some ⟨.UInt16, field.offset⟩
            | .UInt32 => some ⟨.UInt32, field.offset⟩
            | .UInt64 => some ⟨.UInt64, field.offset⟩
            | _ => none := rfl
    rw [h0, hlu]
    cases fields.find? (fun f => f.flattened_field_name == "timestamp") with
    | none => rfl
    | some field =>
      obtain ⟨nm, ft, off⟩ := field
      cases ft <;> rfl
  cases hfind : fields.find? (fun f => f.flattened_field_name == "timestamp") with
  | none =>
    rw [hfind] at hts
    have hts2 : (FlattenedFormat.new name fields size).timestamp_field = none := hts
    constructor
    · constructor
      · intro h
        rw [hts2] at h
        exact absurd h (by simp)
      · rintro ⟨g, hg, hgn, -⟩
        have := List.find?_eq_none.mp hfind g hg
        rw [beq_iff_eq] at this
        exact absurd hgn this
    · intro t ht
      rw [hts2] at ht
      exact Option.noConfusion ht
  | some f =>
    rw [hfind] at hts
    have hts2 : (FlattenedFormat.new name fields size).timestamp_field
        = (tsTypeOf f.field_type).map (fun tt => (⟨tt, f.offset⟩ : TimestampField)) := hts
    have hmem : f ∈ fields := List.mem_of_find?_eq_some hfind
    have hp := List.find?_some hfind
    have hname : f.flattened_field_name = "timestamp" := by simpa using hp
    constructor
    · constructor
      · intro h
        rw [hts2] at h
        cases hty : tsTypeOf f.field_type with
        | none => rw [hty] at h; exact absurd h (by simp)
        | some tt =>
          exact ⟨f, hmem, hname, by rw [isUnsignedInt_eq_isSome, hty]; rfl⟩
      · rintro ⟨g, hg, hgn, hgu⟩
        have hgf : g = f :=
          List.inj_on_of_nodup_map hnodup hg hmem (hgn.trans hname.symm)
        subst hgf
        rw [isUnsignedInt_eq_isSome] at hgu
        rw [hts2]
        cases hty : tsTypeOf g.field_type with
        | none => rw [hty] at hgu; exact absurd hgu (by simp)
        | some tt => rfl
    · intro t ht
      rw [hts2] at ht
      cases hty : tsTypeOf f.field_type with
      | none => rw [hty] at ht; exact Option.noConfusion ht
      | some tt =>
        rw [hty] at ht
        simp only [Option.map_some', Option.some.injEq] at ht
        refine ⟨f, hmem, hname, ?_, ?_⟩
        · rw [← ht]
        · rw [← ht]
          exact tsTypeOf_width f.field_type tt hty

/-- Processing a field list whose last field `pad` is padding-named, at
top level (empty prefix): the loop stops at `pad`, so the run equals the
run over the earlier fields alone (provided no earlier field shares
`pad`'s name, which field-name uniqueness guarantees). -/
theorem flatten_field_list_elide (fuel : Nat) (message_formats : List (String × List Field))
    (visited : List String) (pad : Field)
    (hpad : strStartsWith pad.field_name "_padding" = true) :
    ∀ (pre : List Field), (∀ f ∈ pre, f.field_name ≠ pad.field_name) → ∀ (offset : Nat),
      flatten_field_list fuel (pre ++ [pad]) pad.field_name offset message_formats "" visited
        = flatten_field_list fuel pre pad.field_name offset message_formats "" visited := by
  intro pre
  induction pre with
  | nil =>
    intro _ offset
    have hcond : (("" == "") && strStartsWith pad.field_name "_padding"
        && (pad.field_name == pad.field_name)) = true := by simp [hpad]
    rw [List.nil_append, flatten_field_list_cons, flatten_field_list_nil]
    simp [hpad]
  | cons f pre' ih =>
    intro hne offset
    have hf : f.field_name ≠ pad.field_name := hne f (List.mem_cons_self f pre')
    have hcond : (("" == "") && strStartsWith f.field_name "_padding"
        && (f.field_name == pad.field_name)) = false := by simp [hf]
    have hne' : ∀ g ∈ pre', g.field_name ≠ pad.field_name :=
      fun g hg => hne g (List.mem_cons_of_mem f hg)
    rw [List.cons_append, flatten_field_list_cons, flatten_field_list_cons]
    simp only [hcond, Bool.false_eq_true, if_false]
    simp only [ih hne']

/-- C7.  Padding handling in the flattener's field loop: (a) a
`"_padding"`-named field that is last in a top-level format (empty
prefix, unique names) is elided — the run equals the run over the
earlier fields, so it contributes neither flattened fields nor size;
(b) any other `"_padding"`-named field (not carrying the top-level
last-field name, or under a nonempty nested prefix) contributes no
flattened field, but its expansion still advances the offset that the
rest of the loop — and hence `total_size_bytes` — is computed from. -/
theorem c7_padding_handling (fuel : Nat) (message_formats : List (String × List Field))
    (visited : List String) :
    (∀ (offset : Nat) (pre : List Field) (pad : Field),
       strStartsWith pad.field_name "_padding" = true →
       (∀ f ∈ pre, f.field_name ≠ pad.field_name) →
       flatten_field_list fuel (pre ++ [pad]) pad.field_name offset message_formats "" visited
         = flatten_field_list fuel pre pad.field_name offset message_formats "" visited)
  ∧ (∀ (offset : Nat) (pad : Field) (rest : List Field) (last_name pfx : String),
       strStartsWith pad.field_name "_padding" = true →
       ¬ (pfx = "" ∧ pad.field_name = last_name) →
       flatten_field_list fuel (pad :: rest) last_name offset message_formats pfx visited
         = match flatten_field fuel pad offset message_formats pfx visited with
           | .error e => .error e
           | .ok (offset', _) =>
             flatten_field_list fuel rest last_name offset' message_formats pfx visited) := by
  constructor
  · intro offset pre pad hpad hne
    exact flatten_field_list_elide fuel message_formats visited pad hpad pre hne offset
  · intro offset pad rest last_name pfx hpad hnc
    have hcond : ((pfx == "") && strStartsWith pad.field_name "_padding"
        && (pad.field_name == last_name)) = false := by
      by_cases hp : pfx = ""
      · have hnl : pad.field_name ≠ last_name := fun h => hnc ⟨hp, h⟩
        simp [hp, hpad, hnl]
      · simp [hp]
    rw [flatten_field_list_cons]
    simp only [hcond, Bool.false_eq_true, if_false]
    cases hff : flatten_field fuel pad offset message_formats pfx visited with
    | error e => rfl
    | ok res =>
      obtain ⟨o', fl⟩ := res
      simp only [hpad, if_true]
      cases hrest : flatten_field_list fuel rest last_name o' message_formats pfx visited with
      | error e => rfl
      | ok res2 =>
        obtain ⟨o'', fl'⟩ := res2
        simp

/-- C7, witness: in format `"x:uint8_t a;uint8_t _padding0;"` at top
level, the trailing padding is elided (both runs consume one byte for
`a` only). -/
theorem c7_witness :
    flatten_field_list 1 [⟨"a", .Singular .UInt8⟩, ⟨"_padding0", .Singular .UInt8⟩]
        "_padding0" 2 [] "" ["x"]
      = flatten_field_list 1 [⟨"a", .Singular .UInt8⟩] "_padding0" 2 [] "" ["x"] :=
  (c7_padding_handling 1 [] ["x"]).1 2 [⟨"a", .Singular .UInt8⟩] ⟨"_padding0", .Singular .UInt8⟩
    (by decide) (by decide)

theorem str_nil_append (s : String) : "" ++ s = s := by
  obtain ⟨d⟩ := s
  rfl

/-- The primitive tag pushed by each non-`Message` branch of
`flatten_data_type` (the identity embedding of `DataType` primitives
into `FlattenedFieldType`). -/
def primOf : DataType → Option FlattenedFieldType
| .Int8 => some .Int8
| .UInt8 => some .UInt8
| .Int16 => some .Int16
| .UInt16 => some .UInt16
| .Int32 => some .Int32
| .UInt32 => some .UInt32
| .Int64 => some .Int64
| .UInt64 => some .UInt64
| .Float => some .Float
| .Double => some .Double
| .Bool => some .Bool
| .Char => some .Char
| .Message _ => none

theorem ptWidth_le (pt : FlattenedFieldType) : pt.width ≤ 8 := by
  cases pt <;> decide

theorem ptWidth_pos (pt : FlattenedFieldType) : 1 ≤ pt.width := by
  cases pt <;> decide

/-- Each primitive branch of `flatten_data_type` in one equation. -/
theorem flatten_data_type_prim (fuel : Nat) (dt : DataType) (qn : String) (o : Nat)
    (M : List (String × List Field)) (vis : List String) (pt : FlattenedFieldType)
    (hprim : primOf dt = some pt) :
    flatten_data_type fuel dt qn o M vis
      = if (o + pt.width) % 65536 = o + pt.width then .ok (o + pt.width, [⟨qn, pt, o % 65536⟩])
        else .error "offset overflow" := by
  cases dt <;> simp only [primOf] at hprim <;>
    first
    | exact Option.noConfusion hprim
    | (rw [← Option.some.inj hprim]
       simp only [flatten_data_type, flatten_data_typeF, FlattenedFieldType.width])

/-- Expanding a nested message whose raw format is a single singular
primitive field `c`: one field is emitted at the entry offset under the
accumulated prefix, and the offset advances by the primitive width. -/
theorem expand_single_prim (M : List (String × List Field)) (T c : String)
    (pdt : DataType) (pt : FlattenedFieldType)
    (hprim : primOf pdt = some pt)
    (hc : strStartsWith c "_padding" = false)
    (hlook : lookupA M T = some [⟨c, .Singular pdt⟩]) :
    ∀ (fuel o : Nat) (pfx : String) (visited : List String), T ∉ visited →
      o + pt.width < 65536 →
      add_flattened_message M fuel T o pfx visited
        = .ok (o + pt.width, [⟨pfx ++ c, pt, o⟩]) := by
  intro fuel o pfx visited hT hlt
  have ho : o % 65536 = o := Nat.mod_eq_of_lt (by omega)
  have hmod : (o + pt.width) % 65536 = o + pt.width := Nat.mod_eq_of_lt hlt
  have hdt : flatten_data_type fuel pdt (pfx ++ c) o M (T :: visited)
      = .ok (o + pt.width, [⟨pfx ++ c, pt, o⟩]) := by
    rw [flatten_data_type_prim fuel pdt _ o M _ pt hprim, if_pos hmod, ho]
  have hcond : ((pfx == "") && strStartsWith c "_padding" && (c == c)) = false := by
    simp [hc]
  have hstep : flatten_field_list fuel [⟨c, .Singular pdt⟩] c o M pfx (T :: visited)
      = .ok (o + pt.width, [⟨pfx ++ c, pt, o⟩]) := by
    rw [flatten_field_list_cons]
    simp only [hcond, Bool.false_eq_true, if_false]
    rw [show flatten_field fuel (⟨c, .Singular pdt⟩ : Field) o M pfx (T :: visited)
        = flatten_data_type fuel pdt (pfx ++ c) o M (T :: visited) from rfl, hdt]
    simp [hc, flatten_field_list_nil]
  rw [add_flattened_message_eq, if_neg hT, hlook]
  exact hstep

/-- Expanding a singular field of nested-message type `T` (with `T`'s
format a single primitive `c`): the emitted field name is the qualified
field name, immediately followed by the type name `T`, then `"."`, then
the child name — with no separator between the field and type names. -/
theorem expand_single_msg (M : List (String × List Field)) (T c : String)
    (pdt : DataType) (pt : FlattenedFieldType)
    (hprim : primOf pdt = some pt)
    (hc : strStartsWith c "_padding" = false)
    (hlook : lookupA M T = some [⟨c, .Singular pdt⟩]) :
    ∀ (fuel o : Nat) (qn : String) (visited : List String), T ∉ visited →
      o + pt.width < 65536 →
      flatten_data_type (fuel + 1) (.Message T) qn o M visited
        = .ok (o + pt.width, [⟨qn ++ T ++ "." ++ c, pt, o⟩]) := by
  intro fuel o qn visited hT hlt
  have hmod : (o + pt.width) % 65536 = o + pt.width := Nat.mod_eq_of_lt hlt
  have hrec : recurOf M (fuel + 1) T o (qn ++ T ++ ".") visited
      = .ok (o + pt.width, [⟨qn ++ T ++ "." ++ c, pt, o⟩]) :=
    expand_single_prim M T c pdt pt hprim hc hlook fuel o (qn ++ T ++ ".") visited hT hlt
  rw [show flatten_data_type (fuel + 1) (.Message T) qn o M visited
      = (match recurOf M (fuel + 1) T o (qn ++ T ++ ".") visited with
         | .error e => .error e
         | .ok (offset', fl) =>
           if offset' % 65536 = offset' then .ok (offset', fl) else .error "offset overflow"
         : Except String (Nat × List FlattenedField)) from rfl, hrec]
  simp [hmod]

/-- The repeated-field loop over a nested-message element type: `cnt`
expansions from index `i`, names suffixed `"[i]"`, offsets advancing by
the primitive width each iteration. -/
theorem expand_repeated_msg (M : List (String × List Field)) (T c : String)
    (pdt : DataType) (pt : FlattenedFieldType)
    (hprim : primOf pdt = some pt)
    (hc : strStartsWith c "_padding" = false)
    (hlook : lookupA M T = some [⟨c, .Singular pdt⟩]) :
    ∀ (cnt : Nat), ∀ (fuel i o : Nat) (base : String) (visited : List String), T ∉ visited →
      o + cnt * pt.width < 65536 →
      flatten_repeated (fuel + 1) (.Message T) base i cnt o M visited
        = .ok (o + cnt * pt.width,
            (List.range cnt).map fun j =>
              ⟨base ++ "[" ++ toString (i + j) ++ "]" ++ T ++ "." ++ c, pt, o + j * pt.width⟩) := by
  intro cnt
  induction cnt with
  | zero =>
    intro fuel i o base visited hT hlt
    simp [flatten_repeated_zero]
  | succ cnt ih =>
    intro fuel i o base visited hT hlt
    have hw1 : o + pt.width < 65536 := by
      have : pt.width ≤ (cnt + 1) * pt.width := Nat.le_mul_of_pos_left _ (by omega)
      omega
    have harith : o + pt.width + cnt * pt.width = o + (cnt + 1) * pt.width := by ring
    have hrec := ih fuel (i + 1) (o + pt.width) base visited hT (by omega)
    simp only [flatten_repeated_succ,
      expand_single_msg M T c pdt pt hprim hc hlook fuel o (base ++ "[" ++ toString i ++ "]")
        visited hT hw1,
      hrec]
    rw [List.range_succ_eq_map, List.map_cons, List.map_map]
    simp only [harith, Nat.add_zero, Nat.zero_mul, List.cons_append, List.nil_append]
    have hmap : List.map
          (fun j => (⟨base ++ "[" ++ toString (i + 1 + j) ++ "]" ++ T ++ "." ++ c, pt,
              o + pt.width + j * pt.width⟩ : FlattenedField)) (List.range cnt)
        = List.map
          ((fun j => (⟨base ++ "[" ++ toString (i + j) ++ "]" ++ T ++ "." ++ c, pt,
              o + j * pt.width⟩ : FlattenedField)) ∘ Nat.succ) (List.range cnt) := by
      refine List.map_congr_left fun j _ => ?_
      have h1 : i + 1 + j = i + (j + 1) := by omega
      have h2 : o + pt.width + j * pt.width = o + (j + 1) * pt.width := by ring
      simp [Function.comp, h1, h2, Nat.succ_eq_add_one]
    rw [hmap]

/-- The raw-format map of the C2 counterexample: `outer` holds one
singular field `sub` of nested type `inner`; `inner` holds one
`uint16_t` field `v`. -/
def formatsC2 : List (String × List Field) :=
  [("outer", [⟨"sub", .Singular (.Message "inner")⟩]),
   ("inner", [⟨"v", .Singular .UInt16⟩])]

/-- C2, counterexample.  Flattening `outer` produces the field name
`"subinner.v"` — the type name is joined to the field name with *no*
dot (`qualified_field_name + message_name + "."`), so the claimed name
`"sub.inner.v"` is wrong. -/
theorem c2_counterexample :
    ((flatten_format formatsC2).map fun tbl =>
        (lookupA tbl "outer").map fun fmt => fmt.fields.map (·.flattened_field_name))
      = .ok (some ["subinner.v"])
  ∧ "subinner.v" ≠ "sub.inner.v" := by
  refine ⟨by decide, by decide⟩

/-- C2, amended.  For a top-level format `top` with a singular field
`f` whose type is a nested message `T` with a single primitive child
`c` (all names free of the `"_padding"` marker, `top ≠ T`), the
flattened field is named `f ++ T ++ "." ++ c` — the type name appears
at the junction but with *no* dot between the field name and the type
name; for an array field the names are `f ++ "[i]" ++ T ++ "." ++ c`. -/
theorem c2_amended_nested_naming (top T f c : String) (pdt : DataType) (pt : FlattenedFieldType)
    (hprim : primOf pdt = some pt)
    (hTop : top ≠ T)
    (hf : strStartsWith f "_padding" = false)
    (hc : strStartsWith c "_padding" = false) :
    flatten_format [(top, [⟨f, .Singular (.Message T)⟩]), (T, [⟨c, .Singular pdt⟩])]
      = .ok [(top, FlattenedFormat.new top [⟨f ++ T ++ "." ++ c, pt, 2⟩] (2 + pt.width)),
             (T, FlattenedFormat.new T [⟨c, pt, 2⟩] (2 + pt.width))]
  ∧ (∀ n : Nat, 2 + n * pt.width < 65536 →
      flatten_format [(top, [⟨f, .Repeated (.Message T) (n : Int)⟩]), (T, [⟨c, .Singular pdt⟩])]
        = .ok [(top, FlattenedFormat.new top
                  ((List.range n).map fun i =>
                    ⟨f ++ "[" ++ toString i ++ "]" ++ T ++ "." ++ c, pt, 2 + i * pt.width⟩)
                  (2 + n * pt.width)),
               (T, FlattenedFormat.new T [⟨c, pt, 2⟩] (2 + pt.width))]) := by
  have hw : pt.width ≤ 8 := ptWidth_le pt
  have hTnot : (T : String) ∉ [top] := by
    intro h
    exact hTop (List.mem_singleton.mp h).symm
  have hm2 : (2 + pt.width) % 65536 = 2 + pt.width := Nat.mod_eq_of_lt (by omega)
  constructor
  · have hlookT : lookupA [(top, [(⟨f, .Singular (.Message T)⟩ : Field)]),
        (T, [⟨c, .Singular pdt⟩])] T = some [⟨c, .Singular pdt⟩] := by
      simp [lookupA, hTop]
    have hlookTop : lookupA [(top, [(⟨f, .Singular (.Message T)⟩ : Field)]),
        (T, [⟨c, .Singular pdt⟩])] top = some [⟨f, .Singular (.Message T)⟩] := by
      simp [lookupA]
    have hmsg : flatten_data_type 2 (.Message T) ("" ++ f) 2
        [(top, [(⟨f, .Singular (.Message T)⟩ : Field)]), (T, [⟨c, .Singular pdt⟩])] [top]
        = .ok (2 + pt.width, [⟨("" ++ f) ++ T ++ "." ++ c, pt, 2⟩]) :=
      expand_single_msg _ T c pdt pt hprim hc hlookT 1 2 ("" ++ f) [top] hTnot (by omega)
    have hcondf : (("" == "") && strStartsWith f "_padding" && (f == f)) = false := by
      simp [hf]
    have e1 : add_flattened_message
          [(top, [(⟨f, .Singular (.Message T)⟩ : Field)]), (T, [⟨c, .Singular pdt⟩])] 2 top 2 "" []
        = .ok (2 + pt.width, [⟨("" ++ f) ++ T ++ "." ++ c, pt, 2⟩]) := by
      have hstep : flatten_field_list 2 [⟨f, .Singular (.Message T)⟩] f 2
          [(top, [(⟨f, .Singular (.Message T)⟩ : Field)]), (T, [⟨c, .Singular pdt⟩])] "" [top]
          = .ok (2 + pt.width, [⟨("" ++ f) ++ T ++ "." ++ c, pt, 2⟩]) := by
        rw [flatten_field_list_cons]
        simp only [hcondf, Bool.false_eq_true, if_false]
        rw [show flatten_field 2 (⟨f, .Singular (.Message T)⟩ : Field) 2
            [(top, [(⟨f, .Singular (.Message T)⟩ : Field)]), (T, [⟨c, .Singular pdt⟩])] "" [top]
            = flatten_data_type 2 (.Message T) ("" ++ f) 2
              [(top, [(⟨f, .Singular (.Message T)⟩ : Field)]), (T, [⟨c, .Singular pdt⟩])] [top]
            from rfl, hmsg]
        simp [hf, flatten_field_list_nil]
      rw [add_flattened_message_eq, if_neg (List.not_mem_nil top), hlookTop]
      exact hstep
    have e2 := expand_single_prim _ T c pdt pt hprim hc hlookT 2 2 "" [] (List.not_mem_nil T)
      (by omega)
    rw [flatten_format]
    simp only [List.length_cons, List.length_nil]
    simp only [flatten_format_entries, e1, e2, hm2, if_pos rfl, str_nil_append]
    simp
  · intro n hn
    have hlookT : lookupA [(top, [(⟨f, .Repeated (.Message T) (n : Int)⟩ : Field)]),
        (T, [⟨c, .Singular pdt⟩])] T = some [⟨c, .Singular pdt⟩] := by
      simp [lookupA, hTop]
    have hlookTop : lookupA [(top, [(⟨f, .Repeated (.Message T) (n : Int)⟩ : Field)]),
        (T, [⟨c, .Singular pdt⟩])] top = some [⟨f, .Repeated (.Message T) (n : Int)⟩] := by
      simp [lookupA]
    have hrep : flatten_repeated 2 (.Message T) ("" ++ f) 0 n 2
        [(top, [(⟨f, .Repeated (.Message T) (n : Int)⟩ : Field)]), (T, [⟨c, .Singular pdt⟩])]
        [top]
        = .ok (2 + n * pt.width,
            (List.range n).map fun j =>
              ⟨("" ++ f) ++ "[" ++ toString (0 + j) ++ "]" ++ T ++ "." ++ c, pt,
               2 + j * pt.width⟩) :=
      expand_repeated_msg _ T c pdt pt hprim hc hlookT n 1 0 2 ("" ++ f) [top] hTnot (by omega)
    have hcondf : (("" == "") && strStartsWith f "_padding" && (f == f)) = false := by
      simp [hf]
    have hmn : (2 + n * pt.width) % 65536 = 2 + n * pt.width := Nat.mod_eq_of_lt hn
    have e1 : add_flattened_message
          [(top, [(⟨f, .Repeated (.Message T) (n : Int)⟩ : Field)]), (T, [⟨c, .Singular pdt⟩])]
          2 top 2 "" []
        = .ok (2 + n * pt.width,
            (List.range n).map fun j =>
              ⟨("" ++ f) ++ "[" ++ toString (0 + j) ++ "]" ++ T ++ "." ++ c, pt,
               2 + j * pt.width⟩) := by
      have hstep : flatten_field_list 2 [⟨f, .Repeated (.Message T) (n : Int)⟩] f 2
          [(top, [(⟨f, .Repeated (.Message T) (n : Int)⟩ : Field)]), (T, [⟨c, .Singular pdt⟩])]
          "" [top]
          = .ok (2 + n * pt.width,
              (List.range n).map fun j =>
                ⟨("" ++ f) ++ "[" ++ toString (0 + j) ++ "]" ++ T ++ "." ++ c, pt,
                 2 + j * pt.width⟩) := by
        rw [flatten_field_list_cons]
        simp only [hcondf, Bool.false_eq_true, if_false]
        rw [show flatten_field 2 (⟨f, .Repeated (.Message T) (n : Int)⟩ : Field) 2
            [(top, [(⟨f, .Repeated (.Message T) (n : Int)⟩ : Field)]),
             (T, [⟨c, .Singular pdt⟩])] "" [top]
            = flatten_repeated 2 (.Message T) ("" ++ f) 0 ((n : Int)).toNat 2
              [(top, [(⟨f, .Repeated (.Message T) (n : Int)⟩ : Field)]),
               (T, [⟨c, .Singular pdt⟩])] [top]
            from rfl, Int.toNat_ofNat, hrep]
        simp [hf, flatten_field_list_nil]
      rw [add_flattened_message_eq, if_neg (List.not_mem_nil top), hlookTop]
      exact hstep
    have e2 := expand_single_prim _ T c pdt pt hprim hc hlookT 2 2 "" [] (List.not_mem_nil T)
      (by omega)
    rw [flatten_format]
    simp only [List.length_cons, List.length_nil]
    simp only [flatten_format_entries, e1, e2, hmn, hm2, if_pos rfl, str_nil_append,
      Nat.zero_add]
    simp

/-- C2, witness for the amended theorem: with `f = "sub"`, `T =
"inner"`, `c = "v"`, `pt = UInt16`, the flattened name is
`"subinner.v"` at offset 2 with total size 4. -/
theorem c2_amended_witness :
    flatten_format [("outer", [⟨"sub", .Singular (.Message "inner")⟩]),
        ("inner", [⟨"v", .Singular .UInt16⟩])]
      = .ok [("outer", FlattenedFormat.new "outer"
                [⟨"sub" ++ "inner" ++ "." ++ "v", .UInt16, 2⟩] (2 + FlattenedFieldType.width .UInt16)),
             ("inner", FlattenedFormat.new "inner" [⟨"v", .UInt16, 2⟩]
                (2 + FlattenedFieldType.width .UInt16))] :=
  (c2_amended_nested_naming "outer" "inner" "sub" "v" .UInt16 .UInt16 (by decide) (by decide)
    (by decide) (by decide)).1

theorem str_append_dot_beq_empty (s : String) : ((s ++ ".") == "") = false := by
  apply beq_eq_false_iff_ne.mpr
  obtain ⟨d⟩ := s
  intro h
  have h2 : d ++ ['.'] = ([] : List Char) := congrArg String.data h
  simp at h2

theorem recurOf_zero (M : List (String × List Field)) (mn : String) (o : Nat) (qn : String)
    (vis : List String) : recurOf M 0 mn o qn vis = .error "recursion fuel exhausted" := rfl

theorem recurOf_succ (M : List (String × List Field)) (fuel : Nat) (mn : String) (o : Nat)
    (qn : String) (vis : List String) :
    recurOf M (fuel + 1) mn o qn vis = add_flattened_message M fuel mn o qn vis := rfl

theorem flatten_data_type_msg (fuel : Nat) (mn qn : String) (o : Nat)
    (M : List (String × List Field)) (vis : List String) :
    flatten_data_type fuel (.Message mn) qn o M vis
      = match recurOf M fuel mn o (qn ++ mn ++ ".") vis with
        | .error e => .error e
        | .ok (offset', fl) =>
          if offset' % 65536 = offset' then .ok (offset', fl) else .error "offset overflow" :=
  rfl

theorem flatten_field_eq (fuel : Nat) (field : Field) (offset : Nat)
    (M : List (String × List Field)) (pfx : String) (vis : List String) :
    flatten_field fuel field offset M pfx vis
      = match field.field_type with
        | .Repeated dt n =>
          flatten_repeated fuel dt (pfx ++ field.field_name) 0 n.toNat offset M vis
        | .Singular dt => flatten_data_type fuel dt (pfx ++ field.field_name) offset M vis := by
  obtain ⟨nm, ft⟩ := field
  cases ft <;> rfl

/-- A nested-message field whose type is already on the visiting path
fails (fuel exhaustion when the budget is spent, otherwise the circular
reference error). -/
theorem fdt_msg_in_vis_errors (M : List (String × List Field)) (X : String) :
    ∀ (fuel : Nat) (qn : String) (o : Nat) (vis : List String), X ∈ vis →
      ∃ e, flatten_data_type fuel (.Message X) qn o M vis = .error e := by
  intro fuel qn o vis hX
  cases fuel with
  | zero =>
    refine ⟨"recursion fuel exhausted", ?_⟩
    rw [flatten_data_type_msg, recurOf_zero]
  | succ fuel' =>
    refine ⟨"Found circular reference to " ++ X, ?_⟩
    rw [flatten_data_type_msg, recurOf_succ, add_flattened_message_eq, if_pos hX]

/-- A field loop containing a field whose expansion always fails (and
in which no field can trigger the top-level elision break) fails. -/
theorem flatten_field_list_contains_bad (M : List (String × List Field)) :
    ∀ (fields : List Field) (fuel : Nat) (last_name pfx : String) (vis : List String)
      (fd : Field),
      fd ∈ fields →
      (∀ g ∈ fields, ((pfx == "") && strStartsWith g.field_name "_padding"
          && (g.field_name == last_name)) = false) →
      (∀ o : Nat, ∃ e, flatten_field fuel fd o M pfx vis = .error e) →
      ∀ o : Nat, ∃ e, flatten_field_list fuel fields last_name o M pfx vis = .error e := by
  intro fields
  induction fields with
  | nil =>
    intro _ _ _ _ _ hmem
    exact absurd hmem (List.not_mem_nil _)
  | cons g rest ih =>
    intro fuel last_name pfx vis fd hmem hnb hbad o
    have hcg := hnb g (List.mem_cons_self g rest)
    rw [flatten_field_list_cons]
    simp only [hcg, Bool.false_eq_true, if_false]
    cases hfg : flatten_field fuel g o M pfx vis with
    | error e => exact ⟨e, rfl⟩
    | ok res =>
      obtain ⟨o', fl⟩ := res
      rcases List.mem_cons.mp hmem with hgd | hrest
      · obtain ⟨e, he⟩ := hbad o
        rw [← hgd] at hfg
        rw [hfg] at he
        exact Except.noConfusion he
      · obtain ⟨e, he⟩ :=
          ih fuel last_name pfx vis fd hrest (fun x hx => hnb x (List.mem_cons_of_mem g hx))
            hbad o'
        exact ⟨e, by simp [he]⟩

/-- Core of the cycle argument: expanding a nested message `B` whose
raw format holds a singular field of message type `A` fails whenever
`A` is already on the visiting path (and so does expanding `A` itself,
the `X = A` case of `fdt_msg_in_vis_errors`). -/
theorem fdt_msg_back_ref_errors (M : List (String × List Field)) (A B : String)
    (fsB : List Field) (fB : Field)
    (hlookB : lookupA M B = some fsB)
    (hfB : fB ∈ fsB) (hfBty : fB.field_type = .Singular (.Message A)) :
    ∀ (fuel : Nat) (qn : String) (o : Nat) (vis : List String), A ∈ vis →
      ∃ e, flatten_data_type fuel (.Message B) qn o M vis = .error e := by
  intro fuel qn o vis hA
  cases fuel with
  | zero =>
    refine ⟨"recursion fuel exhausted", ?_⟩
    rw [flatten_data_type_msg, recurOf_zero]
  | succ fuel' =>
    by_cases hB : B ∈ vis
    · refine ⟨"Found circular reference to " ++ B, ?_⟩
      rw [flatten_data_type_msg, recurOf_succ, add_flattened_message_eq, if_pos hB]
    · obtain ⟨lastB, hlastB⟩ : ∃ lb, fsB.getLast? = some lb := by
        cases h : fsB.getLast? with
        | none =>
          rw [List.getLast?_eq_none_iff] at h
          subst h
          exact absurd hfB (List.not_mem_nil _)
        | some lb => exact ⟨lb, rfl⟩
      have hbad : ∀ o' : Nat, ∃ e,
          flatten_field fuel' fB o' M (qn ++ B ++ ".") (B :: vis) = .error e := by
        intro o'
        obtain ⟨e, he⟩ := fdt_msg_in_vis_errors M A fuel' ((qn ++ B ++ ".") ++ fB.field_name)
          o' (B :: vis) (List.mem_cons_of_mem B hA)
        refine ⟨e, ?_⟩
        rw [flatten_field_eq, hfBty]
        exact he
      have hnb : ∀ g ∈ fsB, (((qn ++ B ++ ".") == "") && strStartsWith g.field_name "_padding"
          && (g.field_name == lastB.field_name)) = false := by
        intro g _
        simp [str_append_dot_beq_empty]
      obtain ⟨e, he⟩ := flatten_field_list_contains_bad M fsB fuel' lastB.field_name
        (qn ++ B ++ ".") (B :: vis) fB hfB hnb hbad o
      have haFM : add_flattened_message M fuel' B o (qn ++ B ++ ".") vis = .error e := by
        rw [add_flattened_message_eq, if_neg hB, hlookB]
        show (match fsB.getLast? with
          | none => Except.ok (o, ([] : List FlattenedField))
          | some last_field =>
            flatten_field_list fuel' fsB last_field.field_name o M (qn ++ B ++ ".")
              (B :: vis)) = .error e
        rw [hlastB]
        exact he
      refine ⟨e, ?_⟩
      rw [flatten_data_type_msg, recurOf_succ, haFM]

theorem lookupA_some_mem_keys {β : Type} (M : List (String × β)) (k : String) (v : β)
    (h : lookupA M k = some v) : k ∈ M.map Prod.fst := by
  induction M with
  | nil => exact Option.noConfusion h
  | cons p rest ih =>
    obtain ⟨k', v'⟩ := p
    by_cases hk : k' = k
    · subst hk
      exact List.mem_cons_self _ _
    · rw [show lookupA ((k', v') :: rest) k = lookupA rest k by simp [lookupA, hk]] at h
      exact List.mem_cons_of_mem _ (ih h)

/-- The sibling-reuse map: `A` holds two singular fields of the same
nested type `B`; `B` is a single `uint8_t`. -/
def siblingFormats : List (String × List Field) :=
  [("A", [⟨"b1", .Singular (.Message "B")⟩, ⟨"b2", .Singular (.Message "B")⟩]),
   ("B", [⟨"v", .Singular .UInt8⟩])]

/-- The elided-cycle map: `A` and `B` reference each other, but both
referencing fields are trailing top-level `_padding` fields, so the
flattener elides them and never follows the cycle. -/
def elidedCycleFormats : List (String × List Field) :=
  [("A", [⟨"_padding0", .Singular (.Message "B")⟩]),
   ("B", [⟨"_padding1", .Singular (.Message "A")⟩])]

/-- The plain two-cycle map: `A` references `B` and `B` references `A`
through ordinary singular fields. -/
def cycleFormats : List (String × List Field) :=
  [("A", [⟨"b", .Singular (.Message "B")⟩]),
   ("B", [⟨"a", .Singular (.Message "A")⟩])]

/-- C6, counterexample.  `elidedCycleFormats` contains the
ancestor-chain cycle `A → B → A` in its reference graph, yet flattening
*succeeds* (with two empty formats): both referencing fields are
trailing top-level padding fields and are elided before the cycle is
ever followed.  So "every raw-format map containing a cycle fails" is
false as stated. -/
theorem c6_counterexample :
    flatten_format elidedCycleFormats
      = .ok [("A", FlattenedFormat.new "A" [] 2), ("B", FlattenedFormat.new "B" [] 2)] := by
  decide

/-- C6, amended.  Cycle detection with a path set: if `A`'s format has
a singular field of message type `B` and `B`'s format has a singular
field of message type `A`, and `A`'s trailing field is not a top-level
elided padding field, then flattening the map fails with an error; and
sibling reuse of one nested message (the canonical two-sibling map)
flattens successfully. -/
theorem c6_amended_cycle_detection (M : List (String × List Field)) (A B : String)
    (fsA fsB : List Field) (fA fB : Field)
    (hlookA : lookupA M A = some fsA)
    (hlookB : lookupA M B = some fsB)
    (hfA : fA ∈ fsA) (hfAty : fA.field_type = .Singular (.Message B))
    (hfB : fB ∈ fsB) (hfBty : fB.field_type = .Singular (.Message A))
    (hlastA : ∀ lf, fsA.getLast? = some lf → strStartsWith lf.field_name "_padding" = false) :
    (∃ e, flatten_format M = .error e)
  ∧ flatten_format siblingFormats
      = .ok [("A", FlattenedFormat.new "A"
                [⟨"b1B.v", .UInt8, 2⟩, ⟨"b2B.v", .UInt8, 3⟩] 4),
             ("B", FlattenedFormat.new "B" [⟨"v", .UInt8, 2⟩] 3)] := by
  constructor
  · obtain ⟨lastA, hlastAeq⟩ : ∃ la, fsA.getLast? = some la := by
      cases h : fsA.getLast? with
      | none =>
        rw [List.getLast?_eq_none_iff] at h
        subst h
        exact absurd hfA (List.not_mem_nil _)
      | some la => exact ⟨la, rfl⟩
    have hlastpad := hlastA lastA hlastAeq
    have haFMA : ∀ (fuel o : Nat), ∃ e, add_flattened_message M fuel A o "" [] = .error e := by
      intro fuel o
      have hbad : ∀ o' : Nat, ∃ e, flatten_field fuel fA o' M "" [A] = .error e := by
        intro o'
        obtain ⟨e, he⟩ := fdt_msg_back_ref_errors M A B fsB fB hlookB hfB hfBty fuel
          ("" ++ fA.field_name) o' [A] (List.mem_singleton.mpr rfl)
        refine ⟨e, ?_⟩
        rw [flatten_field_eq, hfAty]
        exact he
      have hnb : ∀ g ∈ fsA, (("" == "") && strStartsWith g.field_name "_padding"
          && (g.field_name == lastA.field_name)) = false := by
        intro g _
        by_cases hg : g.field_name = lastA.field_name
        · rw [hg, hlastpad]
          simp
        · simp [hg]
      obtain ⟨e, he⟩ := flatten_field_list_contains_bad M fsA fuel lastA.field_name ""
        [A] fA hfA hnb hbad o
      refine ⟨e, ?_⟩
      rw [add_flattened_message_eq, if_neg (List.not_mem_nil A), hlookA]
      show (match fsA.getLast? with
        | none => Except.ok (o, ([] : List FlattenedField))
        | some last_field =>
          flatten_field_list fuel fsA last_field.field_name o M "" [A]) = .error e
      rw [hlastAeq]
      exact he
    have hkeys := lookupA_some_mem_keys M A fsA hlookA
    have hentries : ∀ (entries : List (String × List Field)), A ∈ entries.map Prod.fst →
        ∀ fuel, ∃ e, flatten_format_entries fuel M entries = .error e := by
      intro entries
      induction entries with
      | nil => intro h; exact absurd h (List.not_mem_nil _)
      | cons p rest ih =>
        obtain ⟨k, v⟩ := p
        intro hmem fuel
        by_cases hk : k = A
        · subst hk
          obtain ⟨e, he⟩ := haFMA fuel 2
          refine ⟨e, ?_⟩
          simp only [flatten_format_entries, he]
        · have hrest : A ∈ rest.map Prod.fst := by
            rcases List.mem_cons.mp hmem with h | h
            · exact absurd h.symm hk
            · exact h
          simp only [flatten_format_entries]
          cases haFM : add_flattened_message M fuel k 2 "" [] with
          | error e => exact ⟨e, rfl⟩
          | ok res =>
            obtain ⟨off, fl⟩ := res
            by_cases hoff : off % 65536 = off
            · obtain ⟨e, he⟩ := ih hrest fuel
              refine ⟨e, ?_⟩
              simp [hoff, he]
            · exact ⟨"Message is too big " ++ k, by simp [hoff]⟩
    exact hentries M hkeys M.length
  · decide

/-- C6, witness for the amended theorem: the plain two-cycle map fails
to flatten. -/
theorem c6_amended_witness : ∃ e, flatten_format cycleFormats = .error e :=
  (c6_amended_cycle_detection cycleFormats "A" "B"
    [⟨"b", .Singular (.Message "B")⟩] [⟨"a", .Singular (.Message "A")⟩]
    ⟨"b", .Singular (.Message "B")⟩ ⟨"a", .Singular (.Message "A")⟩
    (by decide) (by decide) (by decide) (by decide) (by decide) (by decide)
    (by intro lf h; cases Option.some.inj h; decide)).1

/-- No field of any format in the map carries the `"_padding"` name
marker (the data model requires padding only as reserved names; this is
the hypothesis under which the offsets are contiguous end to end). -/
def NoPad (M : List (String × List Field)) : Prop :=
  ∀ e ∈ M, ∀ f ∈ e.2, strStartsWith f.field_name "_padding" = false

instance (M : List (String × List Field)) : Decidable (NoPad M) := by
  unfold NoPad
  infer_instance

/-- The fields `fl` are laid out contiguously from offset `o`, ending
exactly at `o'`. -/
def ContigFrom : Nat → List FlattenedField → Nat → Prop
| o, [], o' => o' = o
| o, f :: rest, o' => f.offset = o ∧ ContigFrom (o + f.field_type.width) rest o'

theorem contig_append (l1 : List FlattenedField) :
    ∀ (l2 : List FlattenedField) (o m o' : Nat),
      ContigFrom o l1 m → ContigFrom m l2 o' → ContigFrom o (l1 ++ l2) o' := by
  induction l1 with
  | nil =>
    intro l2 o m o' h1 h2
    simp only [ContigFrom] at h1
    subst h1
    simpa using h2
  | cons f rest ih =>
    intro l2 o m o' h1 h2
    obtain ⟨hf, hrest⟩ := h1
    exact ⟨hf, ih l2 _ m o' hrest h2⟩

theorem contig_chain (l : List FlattenedField) :
    ∀ (o o' : Nat), ContigFrom o l o' → l.Chain' (fun a b => a.offset < b.offset) := by
  induction l with
  | nil => intro _ _ _; simp
  | cons f rest ih =>
    intro o o' h
    obtain ⟨hf, hrest⟩ := h
    cases rest with
    | nil => simp
    | cons g r =>
      rw [List.chain'_cons]
      refine ⟨?_, ih _ _ hrest⟩
      have hg : g.offset = o + f.field_type.width := hrest.1
      have hw : 1 ≤ f.field_type.width := ptWidth_pos _
      omega

theorem contig_last (l : List FlattenedField) :
    ∀ (o o' : Nat), ContigFrom o l o' →
      ∀ lf, l.getLast? = some lf → o' = lf.offset + lf.field_type.width := by
  induction l with
  | nil => intro _ _ _ _ h; exact Option.noConfusion h
  | cons f rest ih =>
    intro o o' h lf hlast
    obtain ⟨hf, hrest⟩ := h
    cases rest with
    | nil =>
      rw [List.getLast?_singleton] at hlast
      cases Option.some.inj hlast
      simp only [ContigFrom] at hrest
      omega
    | cons g r =>
      rw [List.getLast?_cons_cons] at hlast
      exact ih _ _ hrest lf hlast

theorem lookupA_mem {α β : Type} [DecidableEq α] (M : List (α × β)) (k : α) (v : β)
    (h : lookupA M k = some v) : (k, v) ∈ M := by
  induction M with
  | nil => exact Option.noConfusion h
  | cons p rest ih =>
    obtain ⟨k', v'⟩ := p
    by_cases hk : k' = k
    · subst hk
      rw [show lookupA ((k', v') :: rest) k' = some v' by simp [lookupA]] at h
      cases Option.some.inj h
      exact List.mem_cons_self _ _
    · rw [show lookupA ((k', v') :: rest) k = lookupA rest k by simp [lookupA, hk]] at h
      exact List.mem_cons_of_mem _ (ih h)

/-- `flatten_data_type` preserves contiguity, given that the descent
into nested messages (`recurOf`) does. -/
theorem contig_dt_of_rec (M : List (String × List Field)) (fuel : Nat)
    (hrec : ∀ (name : String) (o : Nat) (qn : String) (vis : List String) (o' : Nat)
      (fl : List FlattenedField), o < 65536 →
      recurOf M fuel name o qn vis = .ok (o', fl) → ContigFrom o fl o' ∧ o' < 65536) :
    ∀ (dt : DataType) (qn : String) (o : Nat) (vis : List String) (o' : Nat)
      (fl : List FlattenedField), o < 65536 →
      flatten_data_type fuel dt qn o M vis = .ok (o', fl) →
      ContigFrom o fl o' ∧ o' < 65536 := by
  intro dt qn o vis o' fl ho hok
  cases dt
  case Message mn =>
    rw [flatten_data_type_msg] at hok
    cases hr : recurOf M fuel mn o (qn ++ mn ++ ".") vis with
    | error e => rw [hr] at hok; exact Except.noConfusion hok
    | ok res =>
      obtain ⟨o'', fl''⟩ := res
      simp only [hr] at hok
      by_cases hmod : o'' % 65536 = o''
      · rw [if_pos hmod] at hok
        simp only [Except.ok.injEq, Prod.mk.injEq] at hok
        obtain ⟨h1, h2⟩ := hok
        subst h1; subst h2
        exact hrec mn o _ vis _ _ ho hr
      · rw [if_neg hmod] at hok
        exact Except.noConfusion hok
  all_goals (
    simp only [flatten_data_type, flatten_data_typeF] at hok
    split at hok
    · rename_i hmod
      simp only [Except.ok.injEq, Prod.mk.injEq] at hok
      obtain ⟨h1, h2⟩ := hok
      subst h2
      refine ⟨⟨Nat.mod_eq_of_lt ho, h1.symm⟩, by omega⟩
    · exact Except.noConfusion hok)

theorem contig_rep_of_dt (M : List (String × List Field)) (fuel : Nat)
    (hdt : ∀ (dt : DataType) (qn : String) (o : Nat) (vis : List String) (o' : Nat)
      (fl : List FlattenedField), o < 65536 →
      flatten_data_type fuel dt qn o M vis = .ok (o', fl) → ContigFrom o fl o' ∧ o' < 65536) :
    ∀ (cnt : Nat) (dt : DataType) (base : String) (i o : Nat) (vis : List String) (o' : Nat)
      (fl : List FlattenedField), o < 65536 →
      flatten_repeated fuel dt base i cnt o M vis = .ok (o', fl) →
      ContigFrom o fl o' ∧ o' < 65536 := by
  intro cnt
  induction cnt with
  | zero =>
    intro dt base i o vis o' fl ho hok
    rw [flatten_repeated_zero] at hok
    simp only [Except.ok.injEq, Prod.mk.injEq] at hok
    obtain ⟨h1, h2⟩ := hok
    subst h1; subst h2
    exact ⟨rfl, ho⟩
  | succ cnt ih =>
    intro dt base i o vis o' fl ho hok
    rw [flatten_repeated_succ] at hok
    cases h1 : flatten_data_type fuel dt (base ++ "[" ++ toString i ++ "]") o M vis with
    | error e => rw [h1] at hok; exact Except.noConfusion hok
    | ok res1 =>
      obtain ⟨o1, fl1⟩ := res1
      simp only [h1] at hok
      obtain ⟨hc1, hlt1⟩ := hdt _ _ _ _ _ _ ho h1
      cases h2 : flatten_repeated fuel dt base (i + 1) cnt o1 M vis with
      | error e => rw [h2] at hok; exact Except.noConfusion hok
      | ok res2 =>
        obtain ⟨o2, fl2⟩ := res2
        simp only [h2] at hok
        obtain ⟨hc2, hlt2⟩ := ih _ _ _ _ _ _ _ hlt1 h2
        simp only [Except.ok.injEq, Prod.mk.injEq] at hok
        obtain ⟨ho2, hfl⟩ := hok
        subst ho2; subst hfl
        exact ⟨contig_append fl1 fl2 o o1 _ hc1 hc2, hlt2⟩

theorem contig_fld_of_dt (M : List (String × List Field)) (fuel : Nat)
    (hdt : ∀ (dt : DataType) (qn : String) (o : Nat) (vis : List String) (o' : Nat)
      (fl : List FlattenedField), o < 65536 →
      flatten_data_type fuel dt qn o M vis = .ok (o', fl) → ContigFrom o fl o' ∧ o' < 65536) :
    ∀ (field : Field) (o : Nat) (pfx : String) (vis : List String) (o' : Nat)
      (fl : List FlattenedField), o < 65536 →
      flatten_field fuel field o M pfx vis = .ok (o', fl) →
      ContigFrom o fl o' ∧ o' < 65536 := by
  intro field o pfx vis o' fl ho hok
  rw [flatten_field_eq] at hok
  cases hft : field.field_type with
  | Repeated dt n =>
    rw [hft] at hok
    exact contig_rep_of_dt M fuel hdt n.toNat dt _ 0 o vis o' fl ho hok
  | Singular dt =>
    rw [hft] at hok
    exact hdt dt _ o vis o' fl ho hok

theorem contig_fls_of_dt (M : List (String × List Field)) (fuel : Nat)
    (hdt : ∀ (dt : DataType) (qn : String) (o : Nat) (vis : List String) (o' : Nat)
      (fl : List FlattenedField), o < 65536 →
      flatten_data_type fuel dt qn o M vis = .ok (o', fl) → ContigFrom o fl o' ∧ o' < 65536) :
    ∀ (fields : List Field), (∀ g ∈ fields, strStartsWith g.field_name "_padding" = false) →
    ∀ (last_name pfx : String) (vis : List String) (o o' : Nat) (fl : List FlattenedField),
      o < 65536 →
      flatten_field_list fuel fields last_name o M pfx vis = .ok (o', fl) →
      ContigFrom o fl o' ∧ o' < 65536 := by
  intro fields
  induction fields with
  | nil =>
    intro _ last_name pfx vis o o' fl ho hok
    rw [flatten_field_list_nil] at hok
    simp only [Except.ok.injEq, Prod.mk.injEq] at hok
    obtain ⟨h1, h2⟩ := hok
    subst h1; subst h2
    exact ⟨rfl, ho⟩
  | cons g rest ih =>
    intro hnp last_name pfx vis o o' fl ho hok
    have hg : strStartsWith g.field_name "_padding" = false := hnp g (List.mem_cons_self g rest)
    rw [flatten_field_list_cons] at hok
    rw [show ((pfx == "") && strStartsWith g.field_name "_padding"
        && (g.field_name == last_name)) = false by simp [hg]] at hok
    simp only [Bool.false_eq_true, if_false] at hok
    cases h1 : flatten_field fuel g o M pfx vis with
    | error e => rw [h1] at hok; exact Except.noConfusion hok
    | ok res1 =>
      obtain ⟨o1, fl1⟩ := res1
      simp only [h1] at hok
      obtain ⟨hc1, hlt1⟩ := contig_fld_of_dt M fuel hdt g o pfx vis o1 fl1 ho h1
      simp only [hg, Bool.false_eq_true, if_false] at hok
      cases h2 : flatten_field_list fuel rest last_name o1 M pfx vis with
      | error e => rw [h2] at hok; exact Except.noConfusion hok
      | ok res2 =>
        obtain ⟨o2, fl2⟩ := res2
        simp only [h2] at hok
        obtain ⟨hc2, hlt2⟩ :=
          ih (fun x hx => hnp x (List.mem_cons_of_mem g hx)) last_name pfx vis o1 o2 fl2
            hlt1 h2
        simp only [Except.ok.injEq, Prod.mk.injEq] at hok
        obtain ⟨ho2, hfl⟩ := hok
        subst ho2; subst hfl
        exact ⟨contig_append fl1 fl2 o o1 _ hc1 hc2, hlt2⟩

theorem contig_aFM_of_dt (M : List (String × List Field)) (hnp : NoPad M) (fuel : Nat)
    (hdt : ∀ (dt : DataType) (qn : String) (o : Nat) (vis : List String) (o' : Nat)
      (fl : List FlattenedField), o < 65536 →
      flatten_data_type fuel dt qn o M vis = .ok (o', fl) → ContigFrom o fl o' ∧ o' < 65536) :
    ∀ (name : String) (o : Nat) (pfx : String) (vis : List String) (o' : Nat)
      (fl : List FlattenedField), o < 65536 →
      add_flattened_message M fuel name o pfx vis = .ok (o', fl) →
      ContigFrom o fl o' ∧ o' < 65536 := by
  intro name o pfx vis o' fl ho hok
  rw [add_flattened_message_eq] at hok
  by_cases hmem : name ∈ vis
  · rw [if_pos hmem] at hok
    exact Except.noConfusion hok
  · rw [if_neg hmem] at hok
    cases hl : lookupA M name with
    | none => rw [hl] at hok; exact Except.noConfusion hok
    | some fields =>
      simp only [hl] at hok
      have hfieldsnp : ∀ g ∈ fields, strStartsWith g.field_name "_padding" = false :=
        fun g hg => hnp (name, fields) (lookupA_mem M name fields hl) g hg
      cases hlast : fields.getLast? with
      | none =>
        simp only [hlast] at hok
        simp only [Except.ok.injEq, Prod.mk.injEq] at hok
        obtain ⟨h1, h2⟩ := hok
        subst h1; subst h2
        exact ⟨rfl, ho⟩
      | some last_field =>
        simp only [hlast] at hok
        exact contig_fls_of_dt M fuel hdt fields hfieldsnp last_field.field_name pfx
          (name :: vis) o o' fl ho hok

/-- The combined contiguity invariant, by induction on the fuel. -/
theorem contig_master (M : List (String × List Field)) (hnp : NoPad M) :
    ∀ (fuel : Nat) (name : String) (o : Nat) (pfx : String) (vis : List String) (o' : Nat)
      (fl : List FlattenedField), o < 65536 →
      add_flattened_message M fuel name o pfx vis = .ok (o', fl) →
      ContigFrom o fl o' ∧ o' < 65536 := by
  intro fuel
  induction fuel with
  | zero =>
    have hrec0 : ∀ (name : String) (o : Nat) (qn : String) (vis : List String) (o' : Nat)
        (fl : List FlattenedField), o < 65536 →
        recurOf M 0 name o qn vis = .ok (o', fl) → ContigFrom o fl o' ∧ o' < 65536 := by
      intro name o qn vis o' fl _ h
      rw [recurOf_zero] at h
      exact Except.noConfusion h
    exact contig_aFM_of_dt M hnp 0 (contig_dt_of_rec M 0 hrec0)
  | succ fuel' ih =>
    have hrec : ∀ (name : String) (o : Nat) (qn : String) (vis : List String) (o' : Nat)
        (fl : List FlattenedField), o < 65536 →
        recurOf M (fuel' + 1) name o qn vis = .ok (o', fl) → ContigFrom o fl o' ∧ o' < 65536 := by
      intro name o qn vis o' fl ho h
      rw [recurOf_succ] at h
      exact ih name o qn vis o' fl ho h
    exact contig_aFM_of_dt M hnp (fuel' + 1) (contig_dt_of_rec M (fuel' + 1) hrec)

theorem flatten_format_entries_mem (M : List (String × List Field)) (fuel : Nat) :
    ∀ (entries : List (String × List Field)) (tbl : List (String × FlattenedFormat)),
      flatten_format_entries fuel M entries = .ok tbl →
      ∀ (nm : String) (F : FlattenedFormat), (nm, F) ∈ tbl →
      ∃ (o' : Nat) (fl : List FlattenedField),
        add_flattened_message M fuel nm 2 "" [] = .ok (o', fl)
        ∧ F = FlattenedFormat.new nm fl o' := by
  intro entries
  induction entries with
  | nil =>
    intro tbl hok nm F hmem
    simp only [flatten_format_entries, Except.ok.injEq] at hok
    subst hok
    exact absurd hmem (List.not_mem_nil _)
  | cons p rest ih =>
    obtain ⟨k, v⟩ := p
    intro tbl hok nm F hmem
    simp only [flatten_format_entries] at hok
    cases haFM : add_flattened_message M fuel k 2 "" [] with
    | error e => rw [haFM] at hok; exact Except.noConfusion hok
    | ok res =>
      obtain ⟨off, fl⟩ := res
      simp only [haFM] at hok
      by_cases hmod : off % 65536 = off
      · rw [if_pos hmod] at hok
        cases hrec : flatten_format_entries fuel M rest with
        | error e => rw [hrec] at hok; exact Except.noConfusion hok
        | ok tbl' =>
          simp only [hrec] at hok
          simp only [Except.ok.injEq] at hok
          subst hok
          rcases List.mem_cons.mp hmem with h | h
          · injection h with h1 h2
            subst h1
            exact ⟨off, fl, haFM, h2⟩
          · exact ih tbl' hrec nm F h
      · rw [if_neg hmod] at hok
        exact Except.noConfusion hok

/-- C5, counterexample.  A top-level format whose *first* field is a
padding field: the padding consumes offset space, so the first
flattened offset is 3, not 2. -/
theorem c5_counterexample :
    flatten_format [("x", [⟨"_padding0", .Singular .UInt8⟩, ⟨"a", .Singular .UInt8⟩])]
      = .ok [("x", FlattenedFormat.new "x" [⟨"a", .UInt8, 3⟩] 4)]
  ∧ (3 : Nat) ≠ 2 := by
  refine ⟨by decide, by decide⟩

/-- C5, amended.  For every `FlattenedFormat` produced by the flattener
from a raw-format map with no `"_padding"`-named fields, the field
offsets are strictly increasing, the first offset equals 2, and
`total_size_bytes` equals the last offset plus the width of the last
field's primitive type.  (With padding fields, the elided or
offset-consuming holes break the first-offset and last-offset
equations, as the counterexample shows; strict monotonicity never
breaks.) -/
theorem c5_offset_invariant (M : List (String × List Field)) (hnp : NoPad M)
    (tbl : List (String × FlattenedFormat)) (hok : flatten_format M = .ok tbl)
    (nm : String) (F : FlattenedFormat) (hmem : (nm, F) ∈ tbl) :
    List.Chain' (fun a b => a.offset < b.offset) F.fields
  ∧ (∀ f0, F.fields.head? = some f0 → f0.offset = 2)
  ∧ (∀ lf, F.fields.getLast? = some lf → F.size = lf.offset + lf.field_type.width) := by
  obtain ⟨o', fl, haFM, hF⟩ :=
    flatten_format_entries_mem M M.length M tbl hok nm F hmem
  obtain ⟨hc, -⟩ := contig_master M hnp M.length nm 2 "" [] o' fl (by omega) haFM
  have hfields : F.fields = fl := by rw [hF]; rfl
  have hsize : F.size = o' := by rw [hF]; rfl
  refine ⟨?_, ?_, ?_⟩
  · rw [hfields]
    exact contig_chain fl 2 o' hc
  · intro f0 h0
    rw [hfields] at h0
    cases fl with
    | nil => exact Option.noConfusion h0
    | cons f rest =>
      cases Option.some.inj h0
      exact hc.1
  · intro lf hlast
    rw [hfields] at hlast
    rw [hsize]
    exact contig_last fl 2 o' hc lf hlast

/-- C5, witness: a two-field padding-free format `x:uint8_t a;uint32_t
b;` flattens to offsets 2 and 3 with total size 7, satisfying all three
conclusions. -/
theorem c5_witness :
    List.Chain' (fun a b => a.offset < b.offset)
      (FlattenedFormat.new "x" [⟨"a", .UInt8, 2⟩, ⟨"b", .UInt32, 3⟩] 7).fields
  ∧ (∀ f0, (FlattenedFormat.new "x" [⟨"a", .UInt8, 2⟩, ⟨"b", .UInt32, 3⟩] 7).fields.head?
        = some f0 → f0.offset = 2)
  ∧ (∀ lf, (FlattenedFormat.new "x" [⟨"a", .UInt8, 2⟩, ⟨"b", .UInt32, 3⟩] 7).fields.getLast?
        = some lf →
      (FlattenedFormat.new "x" [⟨"a", .UInt8, 2⟩, ⟨"b", .UInt32, 3⟩] 7).size
        = lf.offset + lf.field_type.width) :=
  c5_offset_invariant
    [("x", [⟨"a", .Singular .UInt8⟩, ⟨"b", .Singular .UInt32⟩])] (by decide)
    [("x", FlattenedFormat.new "x" [⟨"a", .UInt8, 2⟩, ⟨"b", .UInt32, 3⟩] 7)] (by decide)
    "x" (FlattenedFormat.new "x" [⟨"a", .UInt8, 2⟩, ⟨"b", .UInt32, 3⟩] 7) (by decide)

/-- C10, witness: a field list with a `UInt64` field named
`"timestamp"` at offset 2 yields a `timestamp_field` of matching offset
and width. -/
theorem c10_witness :
    ∃ f ∈ [(⟨"timestamp", .UInt64, 2⟩ : FlattenedField)], f.flattened_field_name = "timestamp"
      ∧ (⟨.UInt64, 2⟩ : TimestampField).offset = f.offset
      ∧ (⟨.UInt64, 2⟩ : TimestampField).field_type.width = f.field_type.width :=
  (c10_timestamp_field "m" [⟨"timestamp", .UInt64, 2⟩] 10 (by decide)).2
    ⟨.UInt64, 2⟩ (by decide)

end Ulog
